import Mathlib

/-!
Shallow embedding of `src/b0Lib/robustunwrap.cpp` (Cusack/Papadakis robust
3-D phase unwrapping).  Field values (C `float`/`double`) are read over exact
rationals; decimal floating literals of the source (`PI`, `1.00001`, `1e38`)
are taken at their decimal value.  The C globals (`dim`, `sze`, `phase`,
`mag`, `unwrapped`, `flag`, the per-bin queue arrays, the stride variables)
are gathered into one explicit state record `St` threaded through every
operation.  The type-erased byte queues (`m_q`, chunk = `sizeof(QUEUEENTRY)`)
are modelled as typed circular buffers over the record type, which is
faithful because every push/pop of one queue uses the same fixed chunk.
-/

set_option maxHeartbeats 4000000
set_option maxRecDepth 2000000
set_option allowUnsafeReducibility true
attribute [local semireducible] Rat.add Rat.sub Rat.mul Rat.inv Rat.ofScientific

namespace RobustUnwrap

/-- The literal `#define PI 3.14159265358979` (robustunwrap.cpp line 17). -/
def PIq : ℚ := 314159265358979 / 100000000000000

/-- The rational `n/1`, written so that it evaluates by kernel reduction. -/
def qOfInt (n : ℤ) : ℚ := mkRat n 1

/-- Truncation toward zero, the effect of the C cast `int(<double>)`:
truncating division of the reduced numerator by the denominator. -/
def truncQ (q : ℚ) : ℤ := Int.tdiv q.num (q.den : ℤ)

/-- `wholepis = int((phase[nqe.p]-qe->v)/PI)` (line 168). -/
def wholepisOf (ph v : ℚ) : ℤ := truncQ ((ph - v) / PIq)

/-- The unwrapped value computed by `Check` (lines 167-174): the neighbour's
wrapped phase corrected by a whole number of `2*PI`, chosen from
`wholepis` by C integer division (truncation; operands are nonnegative in
both branches, so this is also a floor). -/
def unwrapVal (ph v : ℚ) : ℚ :=
  let w := wholepisOf ph v
  if 1 ≤ w then ph - 2 * PIq * qOfInt (Int.tdiv (w + 1) 2)
  else if w ≤ -1 then ph + 2 * PIq * qOfInt (Int.tdiv (1 - w) 2)
  else ph

/-! ### The growable FIFO record queue (lines 60-146) -/

/-- `DEFAULTBLOCK` (line 61). -/
def DEFAULTBLOCK : Nat := 100

/-- `BLOCKINCREMENT` (line 62). -/
def BLOCKINCREMENT : Nat := 500

/-- One of the circular point queues: `m_bot`, `m_top`, `m_size` and the
backing store `m_q` (records in slot order). -/
structure Queue (α : Type) where
  bot : Nat
  top : Nat
  size : Nat
  data : Nat → α

/-- `InitQueue` (lines 68-77): empty queue of capacity `DEFAULTBLOCK`;
the lazy allocation of `m_q` is value-irrelevant, the fresh store is
modelled by the default element. -/
def Queue.init {α : Type} [Inhabited α] : Queue α :=
  ⟨0, 0, DEFAULTBLOCK, fun _ => default⟩

/-- `Push` (lines 88-135).  Writes at `m_top`, advances it circularly, and
when the top meets the bottom re-linearizes into a fresh store of capacity
`m_size + BLOCKINCREMENT` (old records from `m_bot` upward first, then those
below `m_top`).  The returned flag records whether this growth step ran. -/
def Queue.push {α : Type} (q : Queue α) (x : α) : Queue α × Bool :=
  let d := Function.update q.data q.top x
  let t0 := q.top + 1
  let t := if t0 = q.size then 0 else t0
  if t = q.bot then
    let ns := q.size + BLOCKINCREMENT
    let nd : Nat → α := fun i =>
      if i < q.size - q.bot then d (q.bot + i) else d (i - (q.size - q.bot))
    (⟨0, q.size, ns, nd⟩, true)
  else ({ q with data := d, top := t }, false)

/-- `Pop` (lines 137-146): fails on `m_bot == m_top`, otherwise yields the
record at `m_bot` and advances `m_bot` circularly. -/
def Queue.pop {α : Type} (q : Queue α) : Option (α × Queue α) :=
  if q.bot = q.top then none
  else
    let b0 := q.bot + 1
    let b := if b0 = q.size then 0 else b0
    some (q.data q.bot, { q with bot := b })

/-- Number of records currently held. -/
def Queue.count {α : Type} (q : Queue α) : Nat :=
  (q.top + q.size - q.bot) % q.size

/-- The held records in pop (FIFO) order. -/
def Queue.toList {α : Type} (q : Queue α) : List α :=
  (List.range q.count).map (fun n => q.data ((q.bot + n) % q.size))

/-- Well-formedness of the circular indices. -/
def QInv {α : Type} (q : Queue α) : Prop := q.bot < q.size ∧ q.top < q.size

instance {α : Type} (q : Queue α) : Decidable (QInv q) := by
  unfold QInv; infer_instance

/-- Push a list of records in order, counting growth events. -/
def Queue.pushAll {α : Type} (q : Queue α) (l : List α) : Queue α × Nat :=
  l.foldl (fun qn x =>
    let r := qn.1.push x
    (r.1, qn.2 + (if r.2 then 1 else 0))) (q, 0)

/-- Pop `n` times, collecting the returned records in order. -/
def Queue.popN {α : Type} : Nat → Queue α → List α × Queue α
  | 0, q => ([], q)
  | n + 1, q =>
    match q.pop with
    | none => ([], q)
    | some (x, q') =>
      let r := Queue.popN n q'
      (x :: r.1, r.2)

/-! ### The unwrap state -/

/-- `QUEUEENTRY` (lines 38-43). -/
structure QE where
  x : Int
  y : Int
  z : Int
  p : Int
  v : ℚ
deriving DecidableEq

instance : Inhabited QE := ⟨⟨0, 0, 0, 0, 0⟩⟩

/-- The file-scope mutable state of robustunwrap.cpp (lines 22-29 and 64-66),
made explicit.  Buffers are flat-indexed by `Int` so that every address the
code computes, in bounds or not, is represented.  `outW` is an
instrumentation field recording, in order, the flat index of every store
into the caller's output buffer `unwrapped`. -/
structure St where
  dim0 : Int
  dim1 : Int
  dim2 : Int
  sze : Nat
  bsx : Int
  bsy : Int
  bsz : Int
  phase : Int → ℚ
  maginput : Int → ℚ
  mag : Int → ℚ
  unwrapped : Int → ℚ
  flag : Int → Bool
  queues : Nat → Queue QE
  errlog : Bool
  outW : List Int

/-- The flat index of voxel `(x,y,z)` for strides `1, d0, d0*d1`. -/
def flat3 (d0 d1 x y z : Int) : Int := x + d0 * (y + d1 * z)

/-- Push entry `qe` onto queue `j` (allocation never fails in the model). -/
def pushQ (j : Nat) (qe : QE) (s : St) : St :=
  { s with queues := Function.update s.queues j ((s.queues j).push qe).1 }

/-- Pop from queue `i`. -/
def popQ (i : Nat) (s : St) : Option (QE × St) :=
  match (s.queues i).pop with
  | none => none
  | some (qe, q') => some (qe, { s with queues := Function.update s.queues i q' })

/-- `Check` (lines 149-183).  The four early returns (three per-axis bounds
tests and the visited test) have no side effects, so they are combined into
one guard; in the write branch the neighbour's unwrapped value is stored,
its flag is set, and the new entry is pushed onto queue `qnum` (the bin
currently being drained). -/
def checkN (qnum : Nat) (qe : QE) (offp ox oy oz : Int) (s : St) : St :=
  let nx := qe.x + ox
  let ny := qe.y + oy
  let nz := qe.z + oz
  let np := qe.p + offp
  if (0 ≤ nx ∧ nx < s.dim0) ∧ (0 ≤ ny ∧ ny < s.dim1) ∧
     (0 ≤ nz ∧ nz < s.dim2) ∧ s.flag np = false then
    let nv := unwrapVal (s.phase np) qe.v
    { s with
      unwrapped := Function.update s.unwrapped np nv,
      flag := Function.update s.flag np true,
      outW := s.outW ++ [np],
      queues := Function.update s.queues qnum ((s.queues qnum).push ⟨nx, ny, nz, np, nv⟩).1 }
  else s

/-- The six `Check` calls of the accepted branch (lines 264-269), in source
order: `+m_bsz, -m_bsz, +m_bsy, -m_bsy, +m_bsx, -m_bsx`. -/
def expand (i : Nat) (qe : QE) (s : St) : St :=
  let s1 := checkN i qe s.bsz 0 0 1 s
  let s2 := checkN i qe (-s1.bsz) 0 0 (-1) s1
  let s3 := checkN i qe s2.bsy 0 1 0 s2
  let s4 := checkN i qe (-s3.bsy) 0 (-1) 0 s3
  let s5 := checkN i qe s4.bsx 1 0 0 s4
  checkN i qe (-s5.bsx) (-1) 0 0 s5

/-- The deferral scan `ind=i; while (mag[qe.p]>polefieldthresholds[++ind]);`
(lines 257-258): starting at `ind`, the first index whose threshold is not
exceeded by `m`.  The C loop is unbounded (running past the allocated
thresholds is undefined); the model searches `fuel` steps and returns
`none` where the C code would read past every meaningful threshold. -/
def scanAux (t : Nat → ℚ) (m : ℚ) : Nat → Nat → Option Nat
  | 0, _ => none
  | fuel + 1, ind => if t ind < m then scanAux t m fuel (ind + 1) else some ind

/-- The target bin of a deferral from bin `i`. -/
def scanTarget (t : Nat → ℚ) (N : Nat) (m : ℚ) (i : Nat) : Option Nat :=
  scanAux t m N (i + 1)

/-- One bin's drain loop (lines 253-272): pop until empty; a popped entry
whose pole-field value exceeds `polefieldthresholds[i]` is deferred
unchanged to the scan target, otherwise its six neighbours are checked.
`fuel` bounds the number of iterations. -/
def drainBin (t : Nat → ℚ) (N : Nat) (i : Nat) : Nat → St → St
  | 0, s => s
  | fuel + 1, s =>
    match popQ i s with
    | none => s
    | some (qe, s') =>
      if t i < s'.mag qe.p then
        match scanTarget t N (s'.mag qe.p) i with
        | some j => drainBin t N i fuel (pushQ j qe s')
        | none => s'
      else drainBin t N i fuel (expand i qe s')

/-- The outer bin loop (lines 250-276) over the listed bin indices. -/
def binsRun (t : Nat → ℚ) (N : Nat) (dfuel : Nat) : List Nat → St → St
  | [], s => s
  | i :: rest, s => binsRun t N dfuel rest (drainBin t N i dfuel s)

/-- The running minimum of lines 200-204: `min` starts at the literal
`1e38`, read at its decimal value. -/
def minMag (s : St) : ℚ :=
  (List.range s.sze).foldl
    (fun (a : ℚ) (i : Nat) => if s.mag (i : Int) < a then s.mag (i : Int) else a) (10 ^ 38)

/-- The running maximum of lines 200-204: `max` starts at `0`. -/
def maxMag (s : St) : ℚ :=
  (List.range s.sze).foldl
    (fun (a : ℚ) (i : Nat) => if a < s.mag (i : Int) then s.mag (i : Int) else a) 0

/-- The literal `1.00001` of line 208. -/
def ratio1 : ℚ := 100001 / 100000

/-- `polefieldthresholds[j] = min + diff*j/(UNWRAPBINS-1)` (line 247). -/
def thresholdsOf (mn diff : ℚ) (N : Nat) : Nat → ℚ :=
  fun j => mn + diff * qOfInt (j : ℤ) / (qOfInt (N : ℤ) - 1)

/-- The clamp of line 194: the effective bin count, at least 2. -/
def binsOf (UNWRAPBINS : Int) : Nat := if UNWRAPBINS < 2 then 2 else UNWRAPBINS.toNat

/-- `seedp=seedx+dim[0]*(seedy+dim[1]*seedz)` (line 210). -/
def seedpOf (s : St) (seedx seedy seedz : Int) : Int :=
  seedx + s.dim0 * (seedy + s.dim1 * seedz)

/-- Lines 212-232 of `unwrap`: reset the visited flags and the queues,
perform the stray store `unwrapped[85]=phase[85]` (line 227), store and
flag the seed (lines 228-229), and push the seed entry onto bin 0. -/
def unwrapSetup (seedx seedy seedz : Int) (s : St) : St :=
  let seedp := seedpOf s seedx seedy seedz
  let s1 := { s with flag := fun _ => false, queues := fun _ => Queue.init }
  let s2 := { s1 with
    unwrapped := Function.update s1.unwrapped 85 (s1.phase 85),
    outW := s1.outW ++ [(85 : Int)] }
  let s3 := { s2 with
    unwrapped := Function.update s2.unwrapped seedp (s2.phase seedp),
    flag := Function.update s2.flag seedp true,
    outW := s2.outW ++ [seedp] }
  pushQ 0 ⟨seedx, seedy, seedz, seedp, s3.phase seedp⟩ s3

/-- `unwrap` (lines 186-279): clamp the bin count to at least 2, compute the
pole-field extrema and `diff`, seed the state, and run the bin loop against
the linearly spaced thresholds. -/
def unwrapModel (seedx seedy seedz : Int) (UNWRAPBINS : Int) (dfuel : Nat) (s : St) : St :=
  binsRun
    (thresholdsOf (minMag s) (ratio1 * (maxMag s - minMag s)) (binsOf UNWRAPBINS))
    (binsOf UNWRAPBINS) dfuel (List.range (binsOf UNWRAPBINS))
    (unwrapSetup seedx seedy seedz s)

/-- The default seed coordinate `int(std::round(double(d)/2.0)-1.0)`
(lines 291-293); for a nonnegative integer `d` the rounding is exact and
half-away-from-zero, so this is `(d+1)/2 - 1`. -/
def seedOf (d : Nat) : Int := ((d + 1) / 2 : Nat) - 1

/-- The state `robustUnwrapMain` (lines 282-317) hands to `unwrap`: strides
`1, d0, d0*d1`, the caller's phase and output buffers, and the private
pole-field copy `mag[i] = -maginput[i]` on `[0, sze)` (fresh storage,
zero elsewhere). -/
def mkDriverState (d0 d1 d2 : Nat) (phaseIn magIn output : Int → ℚ) : St :=
  let szeN : Nat := d0 * d1 * d2
  { dim0 := (d0 : Int), dim1 := (d1 : Int), dim2 := (d2 : Int), sze := szeN,
    bsx := 1, bsy := (d0 : Int), bsz := (d0 : Int) * (d1 : Int),
    phase := phaseIn, maginput := magIn,
    mag := fun i => if 0 ≤ i ∧ i < (szeN : Int) then -(magIn i) else 0,
    unwrapped := output, flag := fun _ => false,
    queues := fun _ => Queue.init,
    errlog := decide (seedOf d0 < 0 ∨ (d0 : Int) ≤ seedOf d0 ∨ seedOf d1 < 0 ∨
      (d1 : Int) ≤ seedOf d1 ∨ seedOf d2 < 0 ∨ (d2 : Int) ≤ seedOf d2),
    outW := [] }

/-- `robustUnwrapMain` (lines 282-317): compute the default seed, log the
seed-bounds error through `GERROR` when it is outside the grid (`errlog`;
the code then continues regardless), build the driver state and call
`unwrap`. -/
def robustUnwrapMainModel (d0 d1 d2 : Nat) (phaseIn magIn output : Int → ℚ)
    (numunwrapbins : Int) (dfuel : Nat) : St :=
  unwrapModel (seedOf d0) (seedOf d1) (seedOf d2) numunwrapbins dfuel
    (mkDriverState d0 d1 d2 phaseIn magIn output)

/-- 6-neighbour continuity in the non-strict sense of the specification:
adjacent in-bounds voxels differ by at most `PI`. -/
def LaxCont (d0 d1 d2 : Int) (ph : Int → ℚ) : Prop :=
  ∀ x y z : Int, 0 ≤ x → x < d0 → 0 ≤ y → y < d1 → 0 ≤ z → z < d2 →
    ((x + 1 < d0 → |ph (flat3 d0 d1 (x + 1) y z) - ph (flat3 d0 d1 x y z)| ≤ PIq) ∧
     (y + 1 < d1 → |ph (flat3 d0 d1 x (y + 1) z) - ph (flat3 d0 d1 x y z)| ≤ PIq) ∧
     (z + 1 < d2 → |ph (flat3 d0 d1 x y (z + 1)) - ph (flat3 d0 d1 x y z)| ≤ PIq))

/-- The flat index of the computed default seed. -/
def mainSeedp (d0 d1 d2 : Nat) : Int :=
  seedOf d0 + (d0 : Int) * (seedOf d1 + (d1 : Int) * seedOf d2)

/-- A phase field on a 1x1x2 grid whose single neighbouring difference is
exactly `PI`. -/
def phC7 : Int → ℚ := fun i => if i = 1 then PIq else 0

/-- The magnitude input of the deferral counterexample: a 1x1x3 line whose
seed voxel's negated magnitude lands exactly on threshold 1. -/
def c9mag : Int → ℚ := fun i => if i = 0 then 2 else if i = 1 then 99999 / 100000 else 0

/-- Driver state of the deferral scenario. -/
def c9st : St := mkDriverState 1 1 3 (fun _ => 0) c9mag (fun _ => 0)

/-- Its bin thresholds for 3 bins. -/
def c9t : Nat → ℚ := thresholdsOf (minMag c9st) (ratio1 * (maxMag c9st - minMag c9st)) 3

/-- The seed entry of the deferral scenario. -/
def c9qe : QE := ⟨0, 0, 1, 1, 0⟩

/-- The state with the seed entry pushed onto bin 0. -/
def c9s1 : St := pushQ 0 c9qe c9st

/-- The state right after popping the seed entry back off bin 0. -/
def c9popped : St :=
  match popQ 0 c9s1 with
  | some r => r.2
  | none => c9s1

/-- Driver state of the constant-zero-magnitude 1x1x1 threshold scenario. -/
def c4st : St := mkDriverState 1 1 1 (fun _ => 0) (fun _ => 0) (fun _ => 0)

/-- Its bin thresholds for 2 bins. -/
def c4t : Nat → ℚ := thresholdsOf (minMag c4st) (ratio1 * (maxMag c4st - minMag c4st)) 2

/-- The fields of the state that the bin loop only reads. -/
def SameRO (s s2 : St) : Prop :=
  s2.dim0 = s.dim0 ∧ s2.dim1 = s.dim1 ∧ s2.dim2 = s.dim2 ∧ s2.sze = s.sze ∧
  s2.bsx = s.bsx ∧ s2.bsy = s.bsy ∧ s2.bsz = s.bsz ∧
  s2.phase = s.phase ∧ s2.maginput = s.maginput ∧ s2.mag = s.mag ∧ s2.errlog = s.errlog

/-- The output-write trace only ever grows. -/
def OutExt (s s2 : St) : Prop := ∃ l, s2.outW = s.outW ++ l

/-- The entry well-formedness the scheduler maintains: coordinates in
bounds, flat index consistent with the strides, and the pending value equal
to the wrapped phase at the entry (used for the continuous-input claims). -/
def EntryOK (s : St) (qe : QE) : Prop :=
  0 ≤ qe.x ∧ qe.x < s.dim0 ∧ 0 ≤ qe.y ∧ qe.y < s.dim1 ∧ 0 ≤ qe.z ∧ qe.z < s.dim2 ∧
  qe.p = flat3 s.dim0 s.dim1 qe.x qe.y qe.z ∧ qe.v = s.phase qe.p

/-- Invariant for the identity (continuous-input) argument: queues well
formed, every queued entry well formed, and every flagged voxel's output
equal to its wrapped phase. -/
def GInv (s : St) : Prop :=
  (∀ i, QInv (s.queues i)) ∧
  (∀ i qe, qe ∈ (s.queues i).toList → EntryOK s qe) ∧
  (∀ p : Int, s.flag p = true → s.unwrapped p = s.phase p)

/-- The stride fields as the driver sets them (lines 313-315). -/
def BsOK (s : St) : Prop := s.bsx = 1 ∧ s.bsy = s.dim0 ∧ s.bsz = s.dim0 * s.dim1

/-- Strict 6-neighbour continuity of a phase field: adjacent in-bounds
voxels differ by strictly less than `PI`. -/
def StrictCont (d0 d1 d2 : Int) (ph : Int → ℚ) : Prop :=
  ∀ x y z : Int, 0 ≤ x → x < d0 → 0 ≤ y → y < d1 → 0 ≤ z → z < d2 →
    ((x + 1 < d0 → |ph (flat3 d0 d1 (x + 1) y z) - ph (flat3 d0 d1 x y z)| < PIq) ∧
     (y + 1 < d1 → |ph (flat3 d0 d1 x (y + 1) z) - ph (flat3 d0 d1 x y z)| < PIq) ∧
     (z + 1 < d2 → |ph (flat3 d0 d1 x y (z + 1)) - ph (flat3 d0 d1 x y z)| < PIq))

/-- Invariant for the 2*PI-congruence claim: every flagged voxel's output
differs from its wrapped phase by `2*PI` times an integer. -/
def congOK (s : St) : Prop :=
  ∀ p : Int, s.flag p = true → ∃ k : ℤ, s.unwrapped p = s.phase p + 2 * PIq * (k : ℚ)

/-! ### Basic facts about the rational primitives -/

theorem qOfInt_eq (n : ℤ) : qOfInt n = (n : ℚ) := by
  simp [qOfInt, Rat.mkRat_one]

theorem PIq_pos : 0 < PIq := by norm_num [PIq]

/-- On nonnegative rationals, truncation toward zero is the floor. -/
theorem truncQ_of_nonneg {q : ℚ} (h : 0 ≤ q) : truncQ q = ⌊q⌋ := by
  rw [truncQ, Rat.floor_def, Int.tdiv_eq_ediv (Rat.num_nonneg.2 h) (by positivity)]

/-- On negative rationals, truncation toward zero is the ceiling. -/
theorem truncQ_of_neg {q : ℚ} (h : q < 0) : truncQ q = ⌈q⌉ := by
  have h1 : (0:ℚ) ≤ -q := by linarith
  have h2 : truncQ (-q) = ⌊-q⌋ := truncQ_of_nonneg h1
  rw [truncQ, Rat.neg_num, Rat.neg_den] at h2
  have h3 : ⌈q⌉ = -⌊-q⌋ := by rw [← Int.ceil_neg, neg_neg]
  rw [truncQ, h3, ← h2, Int.neg_tdiv]
  ring

/-- Truncation toward zero, written as the floor/ceiling split used in the
statement of the arithmetic claims. -/
theorem truncQ_eq_ite (q : ℚ) : truncQ q = if 0 ≤ q then ⌊q⌋ else ⌈q⌉ := by
  by_cases h : 0 ≤ q
  · rw [if_pos h, truncQ_of_nonneg h]
  · rw [if_neg h, truncQ_of_neg (lt_of_not_le h)]

/-- Strictly inside `(-1, 1)` the truncation vanishes. -/
theorem truncQ_eq_zero {q : ℚ} (h1 : -1 < q) (h2 : q < 1) : truncQ q = 0 := by
  by_cases h : 0 ≤ q
  · rw [truncQ_of_nonneg h]
    exact Int.floor_eq_zero_iff.2 ⟨h, h2⟩
  · rw [truncQ_of_neg (lt_of_not_le h)]
    exact Int.ceil_eq_zero_iff.2 ⟨by simpa using h1, by linarith [lt_of_not_le h]⟩

/-- Every value `Check` computes differs from the neighbour's wrapped phase
by `2*PI` times an integer. -/
theorem unwrapVal_sub_phase (ph v : ℚ) : ∃ k : ℤ, unwrapVal ph v = ph + 2 * PIq * k := by
  rw [unwrapVal]
  by_cases h1 : 1 ≤ wholepisOf ph v
  · refine ⟨-(Int.tdiv (wholepisOf ph v + 1) 2), ?_⟩
    rw [if_pos h1, qOfInt_eq]
    push_cast
    ring
  · by_cases h2 : wholepisOf ph v ≤ -1
    · refine ⟨Int.tdiv (1 - wholepisOf ph v) 2, ?_⟩
      rw [if_neg h1, if_pos h2, qOfInt_eq]
    · exact ⟨0, by rw [if_neg h1, if_neg h2]; push_cast; ring⟩

/-- When the neighbour's phase is strictly within `PI` of the resolved value,
`Check` applies no correction. -/
theorem unwrapVal_of_close {ph v : ℚ} (h : |ph - v| < PIq) : unwrapVal ph v = ph := by
  have hp := PIq_pos
  have hw : wholepisOf ph v = 0 := by
    rw [wholepisOf]
    apply truncQ_eq_zero
    · rw [neg_lt, ← neg_div]
      rw [div_lt_one hp]
      cases abs_lt.1 h with
      | intro hl hr => linarith
    · rw [div_lt_one hp]
      cases abs_lt.1 h with
      | intro hl hr => linarith
  rw [unwrapVal, hw]
  norm_num


/-! ### Refinement of the circular queue to a FIFO list -/

theorem two_n_mod (a n : Nat) (_hn : 0 < n) (h : a < 2 * n) :
    a % n = if a < n then a else a - n := by
  by_cases hlt : a < n
  · rw [if_pos hlt, Nat.mod_eq_of_lt hlt]
  · rw [if_neg hlt, Nat.mod_eq_sub_mod (by omega), Nat.mod_eq_of_lt (by omega)]

theorem Queue.count_eq {α : Type} (q : Queue α) (hq : QInv q) :
    q.count = if q.top < q.bot then q.top + q.size - q.bot else q.top - q.bot := by
  obtain ⟨h1, h2⟩ := hq
  unfold Queue.count
  rw [two_n_mod _ _ (by omega) (by omega)]
  by_cases h : q.top < q.bot
  · rw [if_pos h, if_pos (by omega)]
  · rw [if_neg h, if_neg (by omega)]
    omega

theorem Queue.count_lt {α : Type} (q : Queue α) (hq : QInv q) : q.count < q.size := by
  have h1 := hq.1
  have h2 := hq.2
  rw [Queue.count_eq q hq]
  split <;> omega

theorem Queue.count_eq_zero_iff {α : Type} (q : Queue α) (hq : QInv q) :
    q.count = 0 ↔ q.bot = q.top := by
  have h1 := hq.1
  have h2 := hq.2
  rw [Queue.count_eq q hq]
  split <;> omega

theorem Queue.length_toList {α : Type} (q : Queue α) : q.toList.length = q.count := by
  simp [Queue.toList]

theorem Queue.toList_getElem {α : Type} (q : Queue α) (m : Nat)
    (h : m < q.toList.length) :
    q.toList[m] = q.data ((q.bot + m) % q.size) := by
  simp [Queue.toList]

/-- The result of `Push`, spelt out for the growth branch. -/
theorem Queue.push_eq_grow {α : Type} (q : Queue α) (x : α)
    (hg : (if q.top + 1 = q.size then 0 else q.top + 1) = q.bot) :
    (q.push x).1 = ⟨0, q.size, q.size + BLOCKINCREMENT, fun i =>
      if i < q.size - q.bot then Function.update q.data q.top x (q.bot + i)
      else Function.update q.data q.top x (i - (q.size - q.bot))⟩ ∧ (q.push x).2 = true := by
  rw [Queue.push, if_pos hg]
  exact ⟨rfl, rfl⟩

/-- The result of `Push`, spelt out for the plain branch. -/
theorem Queue.push_eq_plain {α : Type} (q : Queue α) (x : α)
    (hg : ¬ (if q.top + 1 = q.size then 0 else q.top + 1) = q.bot) :
    (q.push x).1 = ⟨q.bot, if q.top + 1 = q.size then 0 else q.top + 1, q.size,
      Function.update q.data q.top x⟩ ∧ (q.push x).2 = false := by
  rw [Queue.push, if_neg hg]
  exact ⟨rfl, rfl⟩

/-- `Push` preserves the circular-index invariant and appends the record at
the FIFO tail. -/
theorem Queue.push_spec {α : Type} (q : Queue α) (x : α) (hq : QInv q) :
    QInv (q.push x).1 ∧ (q.push x).1.toList = q.toList ++ [x] := by
  obtain ⟨hb, ht⟩ := hq
  have hn : 0 < q.size := by omega
  have hB : BLOCKINCREMENT = 500 := rfl
  by_cases hg : (if q.top + 1 = q.size then 0 else q.top + 1) = q.bot
  · -- growth branch
    have hpush := (Queue.push_eq_grow q x hg).1
    have htb : (q.top + 1 = q.size ∧ q.bot = 0) ∨ (q.top + 1 < q.size ∧ q.top + 1 = q.bot) := by
      by_cases h : q.top + 1 = q.size
      · rw [if_pos h] at hg; omega
      · rw [if_neg h] at hg; omega
    have hcount : q.count = q.size - 1 := by
      rw [Queue.count_eq q ⟨hb, ht⟩]
      rcases htb with ⟨h1, h2⟩ | ⟨h1, h2⟩ <;> split <;> omega
    have hbot : (q.push x).1.bot = 0 := by rw [hpush]
    have htop : (q.push x).1.top = q.size := by rw [hpush]
    have hsz : (q.push x).1.size = q.size + BLOCKINCREMENT := by rw [hpush]
    have hdata : ∀ k, (q.push x).1.data k =
        if k < q.size - q.bot then Function.update q.data q.top x (q.bot + k)
        else Function.update q.data q.top x (k - (q.size - q.bot)) := by
      intro k
      rw [hpush]
    have hinv2 : QInv (q.push x).1 := ⟨by omega, by omega⟩
    have hcount2 : (q.push x).1.count = q.size := by
      rw [Queue.count_eq _ hinv2, hbot, htop, hsz]
      rw [if_neg (by omega)]
      omega
    refine ⟨hinv2, ?_⟩
    apply List.ext_getElem
    · rw [Queue.length_toList, hcount2]
      rw [List.length_append, Queue.length_toList, hcount]
      simp
      omega
    · intro m hm1 hm2
      rw [Queue.length_toList, hcount2] at hm1
      rw [Queue.toList_getElem _ m (by rw [Queue.length_toList, hcount2]; exact hm1)]
      rw [hbot, hsz, Nat.zero_add, Nat.mod_eq_of_lt (by omega), hdata]
      by_cases hlast : m = q.size - 1
      · have hx : (q.toList ++ [x])[m] = x := by
          have hml : m = q.toList.length := by rw [Queue.length_toList, hcount]; omega
          simp [hml]
        rw [hx]
        rcases htb with ⟨h1, h2⟩ | ⟨h1, h2⟩
        · rw [if_pos (by omega), Function.update_apply, if_pos (by omega)]
        · rw [if_neg (by omega), Function.update_apply, if_pos (by omega)]
      · have hmold : m < q.toList.length := by rw [Queue.length_toList, hcount]; omega
        have hold : (q.toList ++ [x])[m] = q.toList[m] := List.getElem_append_left hmold
        rw [hold, Queue.toList_getElem _ m hmold]
        rw [two_n_mod _ _ hn (by omega)]
        rcases htb with ⟨h1, h2⟩ | ⟨h1, h2⟩
        · rw [if_pos (by omega), if_pos (by omega), Function.update_apply, if_neg (by omega)]
        · by_cases hseg : m < q.size - q.bot
          · rw [if_pos hseg, if_pos (by omega), Function.update_apply, if_neg (by omega)]
          · rw [if_neg hseg, if_neg (by omega), Function.update_apply, if_neg (by omega)]
            congr 1
            omega
  · -- plain branch
    have hpush := (Queue.push_eq_plain q x hg).1
    have hbot : (q.push x).1.bot = q.bot := by rw [hpush]
    have htop : (q.push x).1.top = if q.top + 1 = q.size then 0 else q.top + 1 := by rw [hpush]
    have hsz : (q.push x).1.size = q.size := by rw [hpush]
    have hdata : ∀ k, (q.push x).1.data k = Function.update q.data q.top x k := by
      intro k
      rw [hpush]
    have hinv : QInv (q.push x).1 := by
      refine ⟨by omega, ?_⟩
      rw [htop, hsz]
      split <;> omega
    refine ⟨hinv, ?_⟩
    have hcl := Queue.count_lt q ⟨hb, ht⟩
    have hc := Queue.count_eq q ⟨hb, ht⟩
    have hcount : (q.push x).1.count = q.count + 1 := by
      rw [Queue.count_eq _ hinv, hbot, htop, hsz]
      by_cases h : q.top + 1 = q.size
      · rw [if_pos h] at hg ⊢
        split at hc <;> split <;> omega
      · rw [if_neg h] at hg ⊢
        split at hc <;> split <;> omega
    apply List.ext_getElem
    · rw [Queue.length_toList, hcount, List.length_append, Queue.length_toList]
      simp
    · intro m hm1 hm2
      rw [Queue.length_toList, hcount] at hm1
      rw [Queue.toList_getElem _ m (by rw [Queue.length_toList, hcount]; exact hm1)]
      rw [hbot, hsz, hdata, two_n_mod _ _ hn (by omega)]
      by_cases hlast : m = q.count
      · have hx : (q.toList ++ [x])[m] = x := by
          have hml : m = q.toList.length := by rw [Queue.length_toList, hlast]
          simp [hml]
        rw [hx, Function.update_apply, if_pos]
        split at hc <;> split <;> omega
      · have hmc : m < q.count := by omega
        have hmold : m < q.toList.length := by rw [Queue.length_toList]; exact hmc
        have hold : (q.toList ++ [x])[m] = q.toList[m] := List.getElem_append_left hmold
        rw [hold, Queue.toList_getElem _ m hmold]
        rw [Function.update_apply,
          if_neg (by intro hEq; split at hc <;> split at hEq <;> omega)]
        rw [two_n_mod _ _ hn (by omega)]

/-- `Pop` on an empty queue fails; on a nonempty queue it yields the FIFO
head and keeps the invariant. -/
theorem Queue.pop_spec {α : Type} (q : Queue α) (hq : QInv q) :
    (q.toList = [] → q.pop = none) ∧
    (∀ y l, q.toList = y :: l →
      ∃ q', q.pop = some (y, q') ∧ QInv q' ∧ q'.toList = l) := by
  obtain ⟨hb, ht⟩ := hq
  have hn : 0 < q.size := by omega
  constructor
  · intro h
    have hc : q.count = 0 := by
      have hl := Queue.length_toList q
      rw [h] at hl
      simpa using hl.symm
    rw [Queue.pop, if_pos ((Queue.count_eq_zero_iff q ⟨hb, ht⟩).1 hc)]
  · intro y l hyl
    have hc : q.count = l.length + 1 := by
      have hl := Queue.length_toList q
      rw [hyl] at hl
      simpa using hl.symm
    have hbt : q.bot ≠ q.top := by
      intro h
      have h0 := (Queue.count_eq_zero_iff q ⟨hb, ht⟩).2 h
      omega
    have hy : y = q.data q.bot := by
      have h0 := Queue.toList_getElem q 0 (by rw [hyl]; simp)
      simp only [Nat.add_zero, Nat.mod_eq_of_lt hb, hyl, List.getElem_cons_zero] at h0
      exact h0
    refine ⟨⟨if q.bot + 1 = q.size then 0 else q.bot + 1, q.top, q.size, q.data⟩, ?_, ?_, ?_⟩
    · rw [Queue.pop, if_neg hbt, hy]
    · refine ⟨?_, ht⟩
      show (if q.bot + 1 = q.size then 0 else q.bot + 1) < q.size
      split <;> omega
    · have hinv2 : QInv (⟨if q.bot + 1 = q.size then 0 else q.bot + 1, q.top, q.size,
          q.data⟩ : Queue α) := by
        refine ⟨?_, ht⟩
        show (if q.bot + 1 = q.size then 0 else q.bot + 1) < q.size
        split <;> omega
      have hcq := Queue.count_eq q ⟨hb, ht⟩
      have hcount2 : Queue.count (⟨if q.bot + 1 = q.size then 0 else q.bot + 1, q.top, q.size,
          q.data⟩ : Queue α) = q.count - 1 := by
        rw [Queue.count_eq _ hinv2]
        dsimp only
        by_cases h : q.bot + 1 = q.size
        · rw [if_pos h]
          split at hcq <;> split <;> omega
        · rw [if_neg h]
          split at hcq <;> split <;> omega
      have hclt := Queue.count_lt q ⟨hb, ht⟩
      apply List.ext_getElem
      · rw [Queue.length_toList, hcount2, hc]
        omega
      · intro m hm1 hm2
        rw [Queue.length_toList, hcount2, hc] at hm1
        rw [Queue.toList_getElem _ m (by rw [Queue.length_toList, hcount2, hc]; omega)]
        have hgl := Queue.toList_getElem q (m + 1) (by rw [Queue.length_toList]; omega)
        simp only [hyl, List.getElem_cons_succ] at hgl
        dsimp only
        rw [hgl]
        rw [two_n_mod _ _ hn (by split <;> omega), two_n_mod _ _ hn (by omega)]
        by_cases h : q.bot + 1 = q.size
        · rw [if_pos h]
          split <;> split <;> congr 1 <;> omega
        · rw [if_neg h]
          split <;> split <;> congr 1 <;> omega


/-! ### The deferral scan -/

/-- What a successful scan returns: the first index at or after `ind` whose
threshold is at least `m`. -/
theorem scanAux_some {t : Nat → ℚ} {m : ℚ} :
    ∀ {fuel ind j : Nat}, scanAux t m fuel ind = some j →
      ind ≤ j ∧ j < ind + fuel ∧ m ≤ t j ∧ ∀ k, ind ≤ k → k < j → t k < m := by
  intro fuel
  induction fuel with
  | zero => intro ind j h; simp [scanAux] at h
  | succ n ih =>
    intro ind j h
    rw [scanAux] at h
    by_cases hc : t ind < m
    · rw [if_pos hc] at h
      obtain ⟨h1, h2, h3, h4⟩ := ih h
      refine ⟨by omega, by omega, h3, ?_⟩
      intro k hk1 hk2
      by_cases hk : k = ind
      · rw [hk]; exact hc
      · exact h4 k (by omega) hk2
    · rw [if_neg hc] at h
      cases h
      exact ⟨le_refl _, by omega, le_of_not_lt hc, by omega⟩

/-- The scan succeeds as soon as some index within reach satisfies it. -/
theorem scanAux_isSome {t : Nat → ℚ} {m : ℚ} :
    ∀ {fuel ind j : Nat}, ind ≤ j → j < ind + fuel → m ≤ t j →
      ∃ j', scanAux t m fuel ind = some j' := by
  intro fuel
  induction fuel with
  | zero => intro ind j h1 h2 _; omega
  | succ n ih =>
    intro ind j h1 h2 h3
    rw [scanAux]
    by_cases hc : t ind < m
    · rw [if_pos hc]
      have hne : ind ≠ j := by
        intro h; rw [h] at hc; exact absurd h3 (not_le.2 hc)
      exact ih (by omega) (by omega) h3
    · rw [if_neg hc]
      exact ⟨ind, rfl⟩

/-! ### Bounds for the pole-field extrema -/

theorem foldl_min_le_init (l : List ℚ) (a : ℚ) : l.foldl min a ≤ a := by
  induction l generalizing a with
  | nil => exact le_refl a
  | cons x xs ih => exact le_trans (ih (min a x)) (min_le_left a x)

theorem foldl_min_le_mem {l : List ℚ} {x : ℚ} (hx : x ∈ l) (a : ℚ) :
    l.foldl min a ≤ x := by
  induction l generalizing a with
  | nil => cases hx
  | cons y ys ih =>
    rcases List.mem_cons.1 hx with h | h
    · subst h
      exact le_trans (foldl_min_le_init ys (min a x)) (min_le_right a x)
    · exact ih h (min a y)

theorem le_foldl_max_init (l : List ℚ) (a : ℚ) : a ≤ l.foldl max a := by
  induction l generalizing a with
  | nil => exact le_refl a
  | cons x xs ih => exact le_trans (le_max_left a x) (ih (max a x))

theorem le_foldl_max_mem {l : List ℚ} {x : ℚ} (hx : x ∈ l) (a : ℚ) :
    x ≤ l.foldl max a := by
  induction l generalizing a with
  | nil => cases hx
  | cons y ys ih =>
    rcases List.mem_cons.1 hx with h | h
    · subst h
      exact le_trans (le_max_right a x) (le_foldl_max_init ys (max a x))
    · exact ih h (max a y)

/-- The running-minimum step of lines 200-204 is `min`. -/
theorem minMag_eq_foldl (s : St) :
    minMag s = ((List.range s.sze).map (fun i : Nat => s.mag (i : Int))).foldl min (10 ^ 38) := by
  rw [List.foldl_map, minMag]
  have hF : (fun (a : ℚ) (i : Nat) => if s.mag (i : Int) < a then s.mag (i : Int) else a)
      = (fun (a : ℚ) (i : Nat) => min a (s.mag (i : Int))) := by
    funext a i
    rcases lt_trichotomy (s.mag (i : Int)) a with h | h | h
    · rw [if_pos h, min_eq_right (le_of_lt h)]
    · rw [if_neg (by rw [h]; exact lt_irrefl a), h, min_self]
    · rw [if_neg (not_lt.2 (le_of_lt h)), min_eq_left (le_of_lt h)]
  rw [hF]

/-- The running-maximum step of lines 200-204 is `max`. -/
theorem maxMag_eq_foldl (s : St) :
    maxMag s = ((List.range s.sze).map (fun i : Nat => s.mag (i : Int))).foldl max 0 := by
  rw [List.foldl_map, maxMag]
  have hF : (fun (a : ℚ) (i : Nat) => if a < s.mag (i : Int) then s.mag (i : Int) else a)
      = (fun (a : ℚ) (i : Nat) => max a (s.mag (i : Int))) := by
    funext a i
    rcases lt_trichotomy a (s.mag (i : Int)) with h | h | h
    · rw [if_pos h, max_eq_right (le_of_lt h)]
    · rw [if_neg (by rw [h]; exact lt_irrefl _), h, max_self]
    · rw [if_neg (not_lt.2 (le_of_lt h)), max_eq_left (le_of_lt h)]
  rw [hF]

theorem minMag_le {s : St} {i : Nat} (h : i < s.sze) : minMag s ≤ s.mag (i : Int) := by
  rw [minMag_eq_foldl]
  exact foldl_min_le_mem (List.mem_map_of_mem _ (List.mem_range.2 h)) _

theorem le_maxMag {s : St} {i : Nat} (h : i < s.sze) : s.mag (i : Int) ≤ maxMag s := by
  rw [maxMag_eq_foldl]
  exact le_foldl_max_mem (List.mem_map_of_mem _ (List.mem_range.2 h)) _

theorem minMag_le_maxMag {s : St} (h : 0 < s.sze) : minMag s ≤ maxMag s :=
  le_trans (minMag_le h) (le_maxMag h)

/-! ### Frame facts: fields the loop never writes -/

theorem SameRO.selfRO (s : St) : SameRO s s :=
  ⟨rfl, rfl, rfl, rfl, rfl, rfl, rfl, rfl, rfl, rfl, rfl⟩

theorem SameRO.transRO {s1 s2 s3 : St} (h1 : SameRO s1 s2) (h2 : SameRO s2 s3) :
    SameRO s1 s3 := by
  obtain ⟨a1, b1, c1, d1, e1, f1, g1, h1', i1, j1, k1⟩ := h1
  obtain ⟨a2, b2, c2, d2, e2, f2, g2, h2', i2, j2, k2⟩ := h2
  exact ⟨a2.trans a1, b2.trans b1, c2.trans c1, d2.trans d1, e2.trans e1,
    f2.trans f1, g2.trans g1, h2'.trans h1', i2.trans i1, j2.trans j1, k2.trans k1⟩

theorem checkN_ro (qnum : Nat) (qe : QE) (offp ox oy oz : Int) (s : St) :
    SameRO s (checkN qnum qe offp ox oy oz s) := by
  rw [checkN]
  split
  · exact ⟨rfl, rfl, rfl, rfl, rfl, rfl, rfl, rfl, rfl, rfl, rfl⟩
  · exact SameRO.selfRO s

theorem expand_ro (i : Nat) (qe : QE) (s : St) : SameRO s (expand i qe s) := by
  rw [expand]
  exact (((((checkN_ro _ _ _ _ _ _ _).transRO (checkN_ro _ _ _ _ _ _ _)).transRO
    (checkN_ro _ _ _ _ _ _ _)).transRO (checkN_ro _ _ _ _ _ _ _)).transRO
    (checkN_ro _ _ _ _ _ _ _)).transRO (checkN_ro _ _ _ _ _ _ _)

theorem pushQ_ro (j : Nat) (qe : QE) (s : St) : SameRO s (pushQ j qe s) :=
  ⟨rfl, rfl, rfl, rfl, rfl, rfl, rfl, rfl, rfl, rfl, rfl⟩

theorem popQ_ro {i : Nat} {s s2 : St} {qe : QE} (h : popQ i s = some (qe, s2)) :
    SameRO s s2 := by
  rw [popQ] at h
  rcases hp : (s.queues i).pop with _ | ⟨y, q2⟩
  · rw [hp] at h; cases h
  · rw [hp] at h
    cases h
    exact ⟨rfl, rfl, rfl, rfl, rfl, rfl, rfl, rfl, rfl, rfl, rfl⟩

/-- One unfolding step of the drain loop, for each of its four cases. -/
theorem drainBin_succ_none {t : Nat → ℚ} {N i fuel : Nat} {s : St}
    (h : popQ i s = none) : drainBin t N i (fuel + 1) s = s := by
  rw [drainBin, h]

theorem drainBin_succ_defer {t : Nat → ℚ} {N i fuel : Nat} {s s2 : St} {qe : QE} {j : Nat}
    (h : popQ i s = some (qe, s2)) (hm : t i < s2.mag qe.p)
    (hs : scanTarget t N (s2.mag qe.p) i = some j) :
    drainBin t N i (fuel + 1) s = drainBin t N i fuel (pushQ j qe s2) := by
  rw [drainBin, h]
  dsimp only
  rw [if_pos hm, hs]

theorem drainBin_succ_stuck {t : Nat → ℚ} {N i fuel : Nat} {s s2 : St} {qe : QE}
    (h : popQ i s = some (qe, s2)) (hm : t i < s2.mag qe.p)
    (hs : scanTarget t N (s2.mag qe.p) i = none) :
    drainBin t N i (fuel + 1) s = s2 := by
  rw [drainBin, h]
  dsimp only
  rw [if_pos hm, hs]

theorem drainBin_succ_expand {t : Nat → ℚ} {N i fuel : Nat} {s s2 : St} {qe : QE}
    (h : popQ i s = some (qe, s2)) (hm : ¬ t i < s2.mag qe.p) :
    drainBin t N i (fuel + 1) s = drainBin t N i fuel (expand i qe s2) := by
  rw [drainBin, h]
  dsimp only
  rw [if_neg hm]

theorem drainBin_ro (t : Nat → ℚ) (N i : Nat) :
    ∀ (fuel : Nat) (s : St), SameRO s (drainBin t N i fuel s) := by
  intro fuel
  induction fuel with
  | zero => intro s; exact SameRO.selfRO s
  | succ n ih =>
    intro s
    rcases hp : popQ i s with _ | ⟨qe, s2⟩
    · rw [drainBin_succ_none hp]
      exact SameRO.selfRO s
    · have h2 := popQ_ro hp
      by_cases hm : t i < s2.mag qe.p
      · rcases hs : scanTarget t N (s2.mag qe.p) i with _ | j
        · rw [drainBin_succ_stuck hp hm hs]
          exact h2
        · rw [drainBin_succ_defer hp hm hs]
          exact h2.transRO ((pushQ_ro j qe s2).transRO (ih (pushQ j qe s2)))
      · rw [drainBin_succ_expand hp hm]
        exact h2.transRO ((expand_ro i qe s2).transRO (ih (expand i qe s2)))

theorem binsRun_ro (t : Nat → ℚ) (N dfuel : Nat) :
    ∀ (bins : List Nat) (s : St), SameRO s (binsRun t N dfuel bins s) := by
  intro bins
  induction bins with
  | nil => intro s; exact SameRO.selfRO s
  | cons i rest ih =>
    intro s
    rw [binsRun]
    exact (drainBin_ro t N i dfuel s).transRO (ih _)

theorem OutExt.selfExt (s : St) : OutExt s s := ⟨[], by simp⟩

theorem OutExt.transExt {s1 s2 s3 : St} (h1 : OutExt s1 s2) (h2 : OutExt s2 s3) :
    OutExt s1 s3 := by
  obtain ⟨l1, h1⟩ := h1
  obtain ⟨l2, h2⟩ := h2
  exact ⟨l1 ++ l2, by rw [h2, h1, List.append_assoc]⟩

theorem checkN_outExt (qnum : Nat) (qe : QE) (offp ox oy oz : Int) (s : St) :
    OutExt s (checkN qnum qe offp ox oy oz s) := by
  rw [checkN]
  split
  · exact ⟨[qe.p + offp], rfl⟩
  · exact OutExt.selfExt s

theorem expand_outExt (i : Nat) (qe : QE) (s : St) : OutExt s (expand i qe s) := by
  rw [expand]
  exact (((((checkN_outExt _ _ _ _ _ _ _).transExt (checkN_outExt _ _ _ _ _ _ _)).transExt
    (checkN_outExt _ _ _ _ _ _ _)).transExt (checkN_outExt _ _ _ _ _ _ _)).transExt
    (checkN_outExt _ _ _ _ _ _ _)).transExt (checkN_outExt _ _ _ _ _ _ _)

theorem pushQ_outExt (j : Nat) (qe : QE) (s : St) : OutExt s (pushQ j qe s) :=
  ⟨[], by simp [pushQ]⟩

theorem popQ_outExt {i : Nat} {s s2 : St} {qe : QE} (h : popQ i s = some (qe, s2)) :
    OutExt s s2 := by
  rw [popQ] at h
  rcases hp : (s.queues i).pop with _ | ⟨y, q2⟩
  · rw [hp] at h; cases h
  · rw [hp] at h
    cases h
    exact ⟨[], by simp⟩

theorem drainBin_outExt (t : Nat → ℚ) (N i : Nat) :
    ∀ (fuel : Nat) (s : St), OutExt s (drainBin t N i fuel s) := by
  intro fuel
  induction fuel with
  | zero => intro s; exact OutExt.selfExt s
  | succ n ih =>
    intro s
    rcases hp : popQ i s with _ | ⟨qe, s2⟩
    · rw [drainBin_succ_none hp]
      exact OutExt.selfExt s
    · have h2 := popQ_outExt hp
      by_cases hm : t i < s2.mag qe.p
      · rcases hs : scanTarget t N (s2.mag qe.p) i with _ | j
        · rw [drainBin_succ_stuck hp hm hs]
          exact h2
        · rw [drainBin_succ_defer hp hm hs]
          exact h2.transExt ((pushQ_outExt j qe s2).transExt (ih (pushQ j qe s2)))
      · rw [drainBin_succ_expand hp hm]
        exact h2.transExt ((expand_outExt i qe s2).transExt (ih (expand i qe s2)))

theorem binsRun_outExt (t : Nat → ℚ) (N dfuel : Nat) :
    ∀ (bins : List Nat) (s : St), OutExt s (binsRun t N dfuel bins s) := by
  intro bins
  induction bins with
  | nil => intro s; exact OutExt.selfExt s
  | cons i rest ih =>
    intro s
    rw [binsRun]
    exact (drainBin_outExt t N i dfuel s).transExt (ih _)


/-! ### Unfolding the neighbour check -/

/-- `Check` when one of the bounds tests or the visited test rejects. -/
theorem checkN_skip {qnum : Nat} {qe : QE} {offp ox oy oz : Int} {s : St}
    (h : ¬ ((0 ≤ qe.x + ox ∧ qe.x + ox < s.dim0) ∧ (0 ≤ qe.y + oy ∧ qe.y + oy < s.dim1) ∧
      (0 ≤ qe.z + oz ∧ qe.z + oz < s.dim2) ∧ s.flag (qe.p + offp) = false)) :
    checkN qnum qe offp ox oy oz s = s := by
  rw [checkN]
  exact if_neg h

/-- `Check` when the neighbour is admitted: store the unwrapped value, set
the flag, record the write, push the new entry. -/
theorem checkN_write {qnum : Nat} {qe : QE} {offp ox oy oz : Int} {s : St}
    (h : (0 ≤ qe.x + ox ∧ qe.x + ox < s.dim0) ∧ (0 ≤ qe.y + oy ∧ qe.y + oy < s.dim1) ∧
      (0 ≤ qe.z + oz ∧ qe.z + oz < s.dim2) ∧ s.flag (qe.p + offp) = false) :
    checkN qnum qe offp ox oy oz s =
      { s with
        unwrapped := Function.update s.unwrapped (qe.p + offp)
          (unwrapVal (s.phase (qe.p + offp)) qe.v),
        flag := Function.update s.flag (qe.p + offp) true,
        outW := s.outW ++ [qe.p + offp],
        queues := Function.update s.queues qnum
          ((s.queues qnum).push ⟨qe.x + ox, qe.y + oy, qe.z + oz, qe.p + offp,
            unwrapVal (s.phase (qe.p + offp)) qe.v⟩).1 } := by
  rw [checkN]
  exact if_pos h

/-! ### Fields of the setup state -/

theorem unwrapSetup_ro (sx sy sz : Int) (s : St) : SameRO s (unwrapSetup sx sy sz s) :=
  ⟨rfl, rfl, rfl, rfl, rfl, rfl, rfl, rfl, rfl, rfl, rfl⟩

theorem unwrapSetup_flag (sx sy sz : Int) (s : St) :
    (unwrapSetup sx sy sz s).flag =
      Function.update (fun _ => false) (seedpOf s sx sy sz) true := rfl

theorem unwrapSetup_unwrapped (sx sy sz : Int) (s : St) :
    (unwrapSetup sx sy sz s).unwrapped =
      Function.update (Function.update s.unwrapped 85 (s.phase 85))
        (seedpOf s sx sy sz) (s.phase (seedpOf s sx sy sz)) := rfl

theorem unwrapSetup_outW (sx sy sz : Int) (s : St) :
    (unwrapSetup sx sy sz s).outW = s.outW ++ [(85 : Int)] ++ [seedpOf s sx sy sz] := rfl

theorem unwrapSetup_queues (sx sy sz : Int) (s : St) :
    (unwrapSetup sx sy sz s).queues =
      Function.update (fun _ => Queue.init) 0
        ((Queue.init : Queue QE).push
          ⟨sx, sy, sz, seedpOf s sx sy sz, s.phase (seedpOf s sx sy sz)⟩).1 := rfl

theorem QInv_init {α : Type} [Inhabited α] : QInv (Queue.init : Queue α) :=
  ⟨by show 0 < DEFAULTBLOCK; decide, by show 0 < DEFAULTBLOCK; decide⟩

theorem toList_init {α : Type} [Inhabited α] : (Queue.init : Queue α).toList = [] := by
  simp [Queue.toList, Queue.count, Queue.init]

/-- Projection helpers for the read-only frame. -/
theorem SameRO.phase_eq {s s2 : St} (h : SameRO s s2) : s2.phase = s.phase :=
  h.2.2.2.2.2.2.2.1

theorem SameRO.mag_eq {s s2 : St} (h : SameRO s s2) : s2.mag = s.mag :=
  h.2.2.2.2.2.2.2.2.2.1

theorem SameRO.maginput_eq {s s2 : St} (h : SameRO s s2) : s2.maginput = s.maginput :=
  h.2.2.2.2.2.2.2.2.1

theorem SameRO.sze_eq {s s2 : St} (h : SameRO s s2) : s2.sze = s.sze :=
  h.2.2.2.1

theorem SameRO.dim0_eq {s s2 : St} (h : SameRO s s2) : s2.dim0 = s.dim0 := h.1

theorem SameRO.dim1_eq {s s2 : St} (h : SameRO s s2) : s2.dim1 = s.dim1 := h.2.1

theorem SameRO.dim2_eq {s s2 : St} (h : SameRO s s2) : s2.dim2 = s.dim2 := h.2.2.1

theorem SameRO.bsx_eq {s s2 : St} (h : SameRO s s2) : s2.bsx = s.bsx := h.2.2.2.2.1

theorem SameRO.bsy_eq {s s2 : St} (h : SameRO s s2) : s2.bsy = s.bsy := h.2.2.2.2.2.1

theorem SameRO.bsz_eq {s s2 : St} (h : SameRO s s2) : s2.bsz = s.bsz := h.2.2.2.2.2.2.1

theorem SameRO.errlog_eq {s s2 : St} (h : SameRO s s2) : s2.errlog = s.errlog :=
  h.2.2.2.2.2.2.2.2.2.2

theorem unwrapSetup_phase (sx sy sz : Int) (s : St) :
    (unwrapSetup sx sy sz s).phase = s.phase := rfl

/-! ### Preservation of the 2*PI-congruence invariant -/

theorem congOK_checkN {qnum : Nat} {qe : QE} {offp ox oy oz : Int} {s : St}
    (h : congOK s) : congOK (checkN qnum qe offp ox oy oz s) := by
  by_cases hc : (0 ≤ qe.x + ox ∧ qe.x + ox < s.dim0) ∧
      (0 ≤ qe.y + oy ∧ qe.y + oy < s.dim1) ∧
      (0 ≤ qe.z + oz ∧ qe.z + oz < s.dim2) ∧ s.flag (qe.p + offp) = false
  · rw [checkN_write hc]
    intro p hp
    dsimp only at hp ⊢
    by_cases hnp : p = qe.p + offp
    · subst hnp
      rw [Function.update_same]
      exact unwrapVal_sub_phase _ _
    · rw [Function.update_noteq hnp] at hp
      rw [Function.update_noteq hnp]
      exact h p hp
  · rw [checkN_skip hc]
    exact h

/-- Transport of the congruence invariant along states with equal
read-only fields and equal flag/unwrapped. -/
theorem congOK_expand {i : Nat} {qe : QE} {s : St} (h : congOK s) :
    congOK (expand i qe s) := by
  rw [expand]
  exact congOK_checkN (congOK_checkN (congOK_checkN (congOK_checkN
    (congOK_checkN (congOK_checkN h)))))

theorem congOK_pushQ {j : Nat} {qe : QE} {s : St} (h : congOK s) :
    congOK (pushQ j qe s) := h

theorem congOK_popQ {i : Nat} {s s2 : St} {qe : QE} (hp : popQ i s = some (qe, s2))
    (h : congOK s) : congOK s2 := by
  rw [popQ] at hp
  rcases hq : (s.queues i).pop with _ | ⟨y, q2⟩
  · rw [hq] at hp; cases hp
  · rw [hq] at hp
    cases hp
    exact h

theorem congOK_drainBin (t : Nat → ℚ) (N i : Nat) :
    ∀ (fuel : Nat) (s : St), congOK s → congOK (drainBin t N i fuel s) := by
  intro fuel
  induction fuel with
  | zero => intro s h; exact h
  | succ n ih =>
    intro s h
    rcases hp : popQ i s with _ | ⟨qe, s2⟩
    · rw [drainBin_succ_none hp]; exact h
    · have h2 := congOK_popQ hp h
      by_cases hm : t i < s2.mag qe.p
      · rcases hs : scanTarget t N (s2.mag qe.p) i with _ | j
        · rw [drainBin_succ_stuck hp hm hs]; exact h2
        · rw [drainBin_succ_defer hp hm hs]
          exact ih _ (congOK_pushQ h2)
      · rw [drainBin_succ_expand hp hm]
        exact ih _ (congOK_expand h2)

theorem congOK_binsRun (t : Nat → ℚ) (N dfuel : Nat) :
    ∀ (bins : List Nat) (s : St), congOK s → congOK (binsRun t N dfuel bins s) := by
  intro bins
  induction bins with
  | nil => intro s h; exact h
  | cons i rest ih =>
    intro s h
    rw [binsRun]
    exact ih _ (congOK_drainBin t N i dfuel s h)

/-- The setup state satisfies the congruence invariant: only the seed is
flagged and its output is its own wrapped phase. -/
theorem congOK_unwrapSetup (sx sy sz : Int) (s : St) :
    congOK (unwrapSetup sx sy sz s) := by
  intro p hp
  rw [unwrapSetup_flag] at hp
  by_cases hps : p = seedpOf s sx sy sz
  · refine ⟨0, ?_⟩
    rw [unwrapSetup_unwrapped, unwrapSetup_phase, hps, Function.update_same]
    push_cast
    ring
  · rw [Function.update_noteq hps] at hp
    cases hp


/-! ### Preservation of the identity invariant on continuous input -/

theorem EntryOK.p_eq {s : St} {qe : QE} (h : EntryOK s qe) :
    qe.p = flat3 s.dim0 s.dim1 qe.x qe.y qe.z := h.2.2.2.2.2.2.1

theorem EntryOK.v_eq {s : St} {qe : QE} (h : EntryOK s qe) :
    qe.v = s.phase qe.p := h.2.2.2.2.2.2.2

theorem EntryOK_mono {s s2 : St} (h : SameRO s s2) {qe : QE} (he : EntryOK s qe) :
    EntryOK s2 qe := by
  obtain ⟨h1, h2, h3, h4, h5, h6, h7, h8⟩ := he
  refine ⟨h1, ?_, h3, ?_, h5, ?_, ?_, ?_⟩
  · rw [h.dim0_eq]; exact h2
  · rw [h.dim1_eq]; exact h4
  · rw [h.dim2_eq]; exact h6
  · rw [h.dim0_eq, h.dim1_eq]; exact h7
  · rw [h.phase_eq]; exact h8

theorem BsOK_of_ro {s s2 : St} (h : SameRO s s2) (hb : BsOK s) : BsOK s2 := by
  rw [BsOK, h.bsx_eq, h.bsy_eq, h.bsz_eq, h.dim0_eq, h.dim1_eq]
  exact hb

theorem StrictCont_of_ro {s s2 : St} (h : SameRO s s2)
    (hc : StrictCont s.dim0 s.dim1 s.dim2 s.phase) :
    StrictCont s2.dim0 s2.dim1 s2.dim2 s2.phase := by
  rw [h.dim0_eq, h.dim1_eq, h.dim2_eq, h.phase_eq]
  exact hc

theorem GInv_checkN {qnum : Nat} {qe : QE} {offp ox oy oz : Int} {s : St}
    (hg : GInv s) (hqe : EntryOK s qe)
    (hoff : offp = ox + s.dim0 * oy + s.dim0 * s.dim1 * oz)
    (hph : (0 ≤ qe.x + ox ∧ qe.x + ox < s.dim0) → (0 ≤ qe.y + oy ∧ qe.y + oy < s.dim1) →
      (0 ≤ qe.z + oz ∧ qe.z + oz < s.dim2) →
      |s.phase (qe.p + offp) - s.phase qe.p| < PIq) :
    GInv (checkN qnum qe offp ox oy oz s) := by
  by_cases hc : (0 ≤ qe.x + ox ∧ qe.x + ox < s.dim0) ∧
      (0 ≤ qe.y + oy ∧ qe.y + oy < s.dim1) ∧
      (0 ≤ qe.z + oz ∧ qe.z + oz < s.dim2) ∧ s.flag (qe.p + offp) = false
  · obtain ⟨hcx, hcy, hcz, hcf⟩ := hc
    have hclose : |s.phase (qe.p + offp) - qe.v| < PIq := by
      rw [hqe.v_eq]
      exact hph hcx hcy hcz
    have hval : unwrapVal (s.phase (qe.p + offp)) qe.v = s.phase (qe.p + offp) :=
      unwrapVal_of_close hclose
    have hro : SameRO s (checkN qnum qe offp ox oy oz s) := checkN_ro _ _ _ _ _ _ _
    rw [checkN_write ⟨hcx, hcy, hcz, hcf⟩] at hro ⊢
    refine ⟨?_, ?_, ?_⟩
    · intro i
      dsimp only
      by_cases hi : i = qnum
      · rw [hi, Function.update_same]
        exact (Queue.push_spec _ _ (hg.1 qnum)).1
      · rw [Function.update_noteq hi]
        exact hg.1 i
    · intro i qe2 hmem
      dsimp only at hmem
      by_cases hi : i = qnum
      · rw [hi, Function.update_same, (Queue.push_spec _ _ (hg.1 qnum)).2] at hmem
        rcases List.mem_append.1 hmem with hold | hnew
        · exact EntryOK_mono hro (hg.2.1 qnum qe2 hold)
      
        · have hqe2 : qe2 = ⟨qe.x + ox, qe.y + oy, qe.z + oz, qe.p + offp,
              unwrapVal (s.phase (qe.p + offp)) qe.v⟩ := by
            simpa using hnew
          subst hqe2
          refine ⟨hcx.1, hcx.2, hcy.1, hcy.2, hcz.1, hcz.2, ?_, ?_⟩
          · show qe.p + offp = flat3 s.dim0 s.dim1 (qe.x + ox) (qe.y + oy) (qe.z + oz)
            rw [hqe.p_eq, hoff, flat3, flat3]
            ring
          · show unwrapVal (s.phase (qe.p + offp)) qe.v = s.phase (qe.p + offp)
            exact hval
      · rw [Function.update_noteq hi] at hmem
        exact EntryOK_mono hro (hg.2.1 i qe2 hmem)
    · intro p hp
      dsimp only at hp ⊢
      by_cases hnp : p = qe.p + offp
      · subst hnp
        rw [Function.update_same, hval]
      · rw [Function.update_noteq hnp] at hp
        rw [Function.update_noteq hnp]
        exact hg.2.2 p hp
  · rw [checkN_skip hc]
    exact hg

theorem GInv_expand {i : Nat} {qe : QE} {s : St} (hb : BsOK s)
    (hcont : StrictCont s.dim0 s.dim1 s.dim2 s.phase)
    (hg : GInv s) (hqe : EntryOK s qe) : GInv (expand i qe s) := by
  obtain ⟨hex1, hex2, hey1, hey2, hez1, hez2, hep, hev⟩ := hqe
  have hqe' : EntryOK s qe := ⟨hex1, hex2, hey1, hey2, hez1, hez2, hep, hev⟩
  obtain ⟨hbx, hby, hbz⟩ := hb
  rw [expand]
  -- a generic step: transport everything through a SameRO state
  have step : ∀ (s2 : St), SameRO s s2 → GInv s2 →
      ∀ (offp ox oy oz : Int), offp = ox + s.dim0 * oy + s.dim0 * s.dim1 * oz →
      ((0 ≤ qe.x + ox ∧ qe.x + ox < s.dim0) → (0 ≤ qe.y + oy ∧ qe.y + oy < s.dim1) →
        (0 ≤ qe.z + oz ∧ qe.z + oz < s.dim2) →
        |s.phase (qe.p + offp) - s.phase qe.p| < PIq) →
      GInv (checkN i qe offp ox oy oz s2) := by
    intro s2 hro hg2 offp ox oy oz hoff hph
    refine GInv_checkN hg2 (EntryOK_mono hro hqe') ?_ ?_
    · rw [hro.dim0_eq, hro.dim1_eq]
      exact hoff
    · rw [hro.dim0_eq, hro.dim1_eq, hro.dim2_eq, hro.phase_eq]
      exact hph
  -- the six direction facts, from strict continuity
  have hpz : (0 ≤ qe.x + 0 ∧ qe.x + 0 < s.dim0) → (0 ≤ qe.y + 0 ∧ qe.y + 0 < s.dim1) →
      (0 ≤ qe.z + 1 ∧ qe.z + 1 < s.dim2) →
      |s.phase (qe.p + s.bsz) - s.phase qe.p| < PIq := by
    intro _ _ hz
    have hcl := (hcont qe.x qe.y qe.z hex1 hex2 hey1 hey2 hez1 hez2).2.2 hz.2
    have harg : qe.p + s.bsz = flat3 s.dim0 s.dim1 qe.x qe.y (qe.z + 1) := by
      rw [hbz, hep, flat3, flat3]; ring
    rw [harg, hep]
    exact hcl
  have hmz : (0 ≤ qe.x + 0 ∧ qe.x + 0 < s.dim0) → (0 ≤ qe.y + 0 ∧ qe.y + 0 < s.dim1) →
      (0 ≤ qe.z + (-1) ∧ qe.z + (-1) < s.dim2) →
      |s.phase (qe.p + -s.bsz) - s.phase qe.p| < PIq := by
    intro _ _ hz
    have hcl := (hcont qe.x qe.y (qe.z - 1) hex1 hex2 hey1 hey2 (by omega)
      (by omega)).2.2 (by omega)
    have he1 : qe.z - 1 + 1 = qe.z := by ring
    rw [he1] at hcl
    have harg : qe.p + -s.bsz = flat3 s.dim0 s.dim1 qe.x qe.y (qe.z - 1) := by
      rw [hbz, hep, flat3, flat3]; ring
    rw [harg, hep, abs_sub_comm]
    exact hcl
  have hpy : (0 ≤ qe.x + 0 ∧ qe.x + 0 < s.dim0) → (0 ≤ qe.y + 1 ∧ qe.y + 1 < s.dim1) →
      (0 ≤ qe.z + 0 ∧ qe.z + 0 < s.dim2) →
      |s.phase (qe.p + s.bsy) - s.phase qe.p| < PIq := by
    intro _ hy _
    have hcl := (hcont qe.x qe.y qe.z hex1 hex2 hey1 hey2 hez1 hez2).2.1 hy.2
    have harg : qe.p + s.bsy = flat3 s.dim0 s.dim1 qe.x (qe.y + 1) qe.z := by
      rw [hby, hep, flat3, flat3]; ring
    rw [harg, hep]
    exact hcl
  have hmy : (0 ≤ qe.x + 0 ∧ qe.x + 0 < s.dim0) → (0 ≤ qe.y + (-1) ∧ qe.y + (-1) < s.dim1) →
      (0 ≤ qe.z + 0 ∧ qe.z + 0 < s.dim2) →
      |s.phase (qe.p + -s.bsy) - s.phase qe.p| < PIq := by
    intro _ hy _
    have hcl := (hcont qe.x (qe.y - 1) qe.z hex1 hex2 (by omega) (by omega)
      hez1 hez2).2.1 (by omega)
    have he1 : qe.y - 1 + 1 = qe.y := by ring
    rw [he1] at hcl
    have harg : qe.p + -s.bsy = flat3 s.dim0 s.dim1 qe.x (qe.y - 1) qe.z := by
      rw [hby, hep, flat3, flat3]; ring
    rw [harg, hep, abs_sub_comm]
    exact hcl
  have hpx : (0 ≤ qe.x + 1 ∧ qe.x + 1 < s.dim0) → (0 ≤ qe.y + 0 ∧ qe.y + 0 < s.dim1) →
      (0 ≤ qe.z + 0 ∧ qe.z + 0 < s.dim2) →
      |s.phase (qe.p + s.bsx) - s.phase qe.p| < PIq := by
    intro hx _ _
    have hcl := (hcont qe.x qe.y qe.z hex1 hex2 hey1 hey2 hez1 hez2).1 hx.2
    have harg : qe.p + s.bsx = flat3 s.dim0 s.dim1 (qe.x + 1) qe.y qe.z := by
      rw [hbx, hep, flat3, flat3]; ring
    rw [harg, hep]
    exact hcl
  have hmx : (0 ≤ qe.x + (-1) ∧ qe.x + (-1) < s.dim0) → (0 ≤ qe.y + 0 ∧ qe.y + 0 < s.dim1) →
      (0 ≤ qe.z + 0 ∧ qe.z + 0 < s.dim2) →
      |s.phase (qe.p + -s.bsx) - s.phase qe.p| < PIq := by
    intro hx _ _
    have hcl := (hcont (qe.x - 1) qe.y qe.z (by omega) (by omega) hey1 hey2
      hez1 hez2).1 (by omega)
    have he1 : qe.x - 1 + 1 = qe.x := by ring
    rw [he1] at hcl
    have harg : qe.p + -s.bsx = flat3 s.dim0 s.dim1 (qe.x - 1) qe.y qe.z := by
      rw [hbx, hep, flat3, flat3]; ring
    rw [harg, hep, abs_sub_comm]
    exact hcl
  -- chain the six checks
  set s1 := checkN i qe s.bsz 0 0 1 s with hs1
  set s2 := checkN i qe (-s1.bsz) 0 0 (-1) s1 with hs2
  set s3 := checkN i qe s2.bsy 0 1 0 s2 with hs3
  set s4 := checkN i qe (-s3.bsy) 0 (-1) 0 s3 with hs4
  set s5 := checkN i qe s4.bsx 1 0 0 s4 with hs5
  have g1 : GInv s1 := step s (SameRO.selfRO s) hg s.bsz 0 0 1 (by rw [hbz]; ring) hpz
  have r1 : SameRO s s1 := checkN_ro i qe s.bsz 0 0 1 s
  have g2 : GInv s2 := step s1 r1 g1 (-s1.bsz) 0 0 (-1)
    (by rw [r1.bsz_eq, hbz]; ring) (by rw [r1.bsz_eq]; exact hmz)
  have r2 : SameRO s s2 := r1.transRO (checkN_ro i qe (-s1.bsz) 0 0 (-1) s1)
  have g3 : GInv s3 := step s2 r2 g2 s2.bsy 0 1 0 (by rw [r2.bsy_eq, hby]; ring)
    (by rw [r2.bsy_eq]; exact hpy)
  have r3 : SameRO s s3 := r2.transRO (checkN_ro i qe s2.bsy 0 1 0 s2)
  have g4 : GInv s4 := step s3 r3 g3 (-s3.bsy) 0 (-1) 0 (by rw [r3.bsy_eq, hby]; ring)
    (by rw [r3.bsy_eq]; exact hmy)
  have r4 : SameRO s s4 := r3.transRO (checkN_ro i qe (-s3.bsy) 0 (-1) 0 s3)
  have g5 : GInv s5 := step s4 r4 g4 s4.bsx 1 0 0 (by rw [r4.bsx_eq, hbx]; ring)
    (by rw [r4.bsx_eq]; exact hpx)
  have r5 : SameRO s s5 := r4.transRO (checkN_ro i qe s4.bsx 1 0 0 s4)
  exact step s5 r5 g5 (-s5.bsx) (-1) 0 0 (by rw [r5.bsx_eq, hbx]; ring)
    (by rw [r5.bsx_eq]; exact hmx)

theorem popQ_some {i : Nat} {s s2 : St} {qe : QE} (hq : QInv (s.queues i))
    (hp : popQ i s = some (qe, s2)) :
    ∃ q2, s2 = { s with queues := Function.update s.queues i q2 } ∧ QInv q2 ∧
      (s.queues i).toList = qe :: q2.toList := by
  rw [popQ] at hp
  rcases hpp : (s.queues i).pop with _ | ⟨y, q2⟩
  · rw [hpp] at hp; cases hp
  · rw [hpp] at hp
    cases hp
    rcases htl : (s.queues i).toList with _ | ⟨a, l⟩
    · have hnone := (Queue.pop_spec _ hq).1 htl
      rw [hnone] at hpp
      cases hpp
    · obtain ⟨q', hq', hinv', htl'⟩ := (Queue.pop_spec _ hq).2 a l htl
      rw [hq'] at hpp
      cases hpp
      exact ⟨q2, rfl, hinv', by rw [htl']⟩

theorem GInv_popQ {i : Nat} {s s2 : St} {qe : QE} (hg : GInv s)
    (hp : popQ i s = some (qe, s2)) : GInv s2 ∧ EntryOK s2 qe := by
  obtain ⟨q2, hs2, hinv2, hcons⟩ := popQ_some (hg.1 i) hp
  have hro : SameRO s s2 := popQ_ro hp
  subst hs2
  refine ⟨⟨?_, ?_, hg.2.2⟩, ?_⟩
  · intro j
    dsimp only
    by_cases hj : j = i
    · rw [hj, Function.update_same]; exact hinv2
    · rw [Function.update_noteq hj]; exact hg.1 j
  · intro j qe2 hmem
    dsimp only at hmem
    by_cases hj : j = i
    · rw [hj, Function.update_same] at hmem
      refine EntryOK_mono hro (hg.2.1 i qe2 ?_)
      rw [hcons]
      exact List.mem_cons_of_mem qe hmem
    · rw [Function.update_noteq hj] at hmem
      exact EntryOK_mono hro (hg.2.1 j qe2 hmem)
  · refine EntryOK_mono hro (hg.2.1 i qe ?_)
    rw [hcons]
    exact List.mem_cons_self qe q2.toList

theorem GInv_pushQ {j : Nat} {qe : QE} {s : St} (hg : GInv s) (hqe : EntryOK s qe) :
    GInv (pushQ j qe s) := by
  have hro : SameRO s (pushQ j qe s) := pushQ_ro j qe s
  refine ⟨?_, ?_, hg.2.2⟩
  · intro i
    show QInv (Function.update s.queues j ((s.queues j).push qe).1 i)
    by_cases hi : i = j
    · rw [hi, Function.update_same]
      exact (Queue.push_spec _ _ (hg.1 j)).1
    · rw [Function.update_noteq hi]
      exact hg.1 i
  · intro i qe2 hmem
    have hmem2 : qe2 ∈ (Function.update s.queues j ((s.queues j).push qe).1 i).toList :=
      hmem
    by_cases hi : i = j
    · rw [hi, Function.update_same, (Queue.push_spec _ _ (hg.1 j)).2] at hmem2
      rcases List.mem_append.1 hmem2 with hold | hnew
      · exact EntryOK_mono hro (hg.2.1 j qe2 hold)
      · have hq2 : qe2 = qe := by simpa using hnew
        subst hq2
        exact EntryOK_mono hro hqe
    · rw [Function.update_noteq hi] at hmem2
      exact EntryOK_mono hro (hg.2.1 i qe2 hmem2)

theorem GInv_drainBin (t : Nat → ℚ) (N i : Nat) :
    ∀ (fuel : Nat) (s : St), BsOK s → StrictCont s.dim0 s.dim1 s.dim2 s.phase →
      GInv s → GInv (drainBin t N i fuel s) := by
  intro fuel
  induction fuel with
  | zero => intro s _ _ hg; exact hg
  | succ n ih =>
    intro s hb hcont hg
    rcases hp : popQ i s with _ | ⟨qe, s2⟩
    · rw [drainBin_succ_none hp]; exact hg
    · obtain ⟨hg2, hqe2⟩ := GInv_popQ hg hp
      have hro := popQ_ro hp
      have hb2 := BsOK_of_ro hro hb
      have hcont2 := StrictCont_of_ro hro hcont
      by_cases hm : t i < s2.mag qe.p
      · rcases hs : scanTarget t N (s2.mag qe.p) i with _ | j
        · rw [drainBin_succ_stuck hp hm hs]; exact hg2
        · rw [drainBin_succ_defer hp hm hs]
          have hro2 := pushQ_ro j qe s2
          exact ih _ (BsOK_of_ro hro2 hb2) (StrictCont_of_ro hro2 hcont2)
            (GInv_pushQ hg2 hqe2)
      · rw [drainBin_succ_expand hp hm]
        have hro2 := expand_ro i qe s2
        exact ih _ (BsOK_of_ro hro2 hb2) (StrictCont_of_ro hro2 hcont2)
          (GInv_expand hb2 hcont2 hg2 hqe2)

theorem GInv_binsRun (t : Nat → ℚ) (N dfuel : Nat) :
    ∀ (bins : List Nat) (s : St), BsOK s → StrictCont s.dim0 s.dim1 s.dim2 s.phase →
      GInv s → GInv (binsRun t N dfuel bins s) := by
  intro bins
  induction bins with
  | nil => intro s _ _ hg; exact hg
  | cons i rest ih =>
    intro s hb hcont hg
    rw [binsRun]
    have hro := drainBin_ro t N i dfuel s
    exact ih _ (BsOK_of_ro hro hb) (StrictCont_of_ro hro hcont)
      (GInv_drainBin t N i dfuel s hb hcont hg)

/-- The setup state satisfies the identity invariant whenever the seed
coordinates are in bounds. -/
theorem GInv_unwrapSetup {sx sy sz : Int} {s : St}
    (hx1 : 0 ≤ sx) (hx2 : sx < s.dim0) (hy1 : 0 ≤ sy) (hy2 : sy < s.dim1)
    (hz1 : 0 ≤ sz) (hz2 : sz < s.dim2) : GInv (unwrapSetup sx sy sz s) := by
  refine ⟨?_, ?_, ?_⟩
  · intro i
    rw [unwrapSetup_queues]
    by_cases hi : i = 0
    · show QInv (Function.update (fun _ => Queue.init) 0 _ i)
      rw [hi, Function.update_same]
      exact (Queue.push_spec _ _ QInv_init).1
    · show QInv (Function.update (fun _ => Queue.init) 0 _ i)
      rw [Function.update_noteq hi]
      exact QInv_init
  · intro i qe hmem
    rw [unwrapSetup_queues] at hmem
    by_cases hi : i = 0
    · rw [hi] at hmem
      have hmem2 : qe ∈ (Function.update (fun _ => (Queue.init : Queue QE)) 0
          ((Queue.init : Queue QE).push ⟨sx, sy, sz, seedpOf s sx sy sz,
            s.phase (seedpOf s sx sy sz)⟩).1 0).toList := hmem
      rw [Function.update_same, (Queue.push_spec _ _ QInv_init).2, toList_init] at hmem2
      have hqe : qe = ⟨sx, sy, sz, seedpOf s sx sy sz,
          s.phase (seedpOf s sx sy sz)⟩ := by simpa using hmem2
      subst hqe
      exact ⟨hx1, hx2, hy1, hy2, hz1, hz2, rfl, rfl⟩
    · have hmem2 : qe ∈ (Function.update (fun _ => (Queue.init : Queue QE)) 0
          ((Queue.init : Queue QE).push ⟨sx, sy, sz, seedpOf s sx sy sz,
            s.phase (seedpOf s sx sy sz)⟩).1 i).toList := hmem
      rw [Function.update_noteq hi, toList_init] at hmem2
      cases hmem2
  · intro p hp
    rw [unwrapSetup_flag] at hp
    rw [unwrapSetup_unwrapped, unwrapSetup_phase]
    by_cases hps : p = seedpOf s sx sy sz
    · rw [hps, Function.update_same]
    · rw [Function.update_noteq hps] at hp
      cases hp

/-- The computed default seed coordinate is in bounds for a positive
dimension. -/
theorem seedOf_bounds {d : Nat} (h : 0 < d) : 0 ≤ seedOf d ∧ seedOf d < (d : Int) := by
  unfold seedOf
  omega


/-! ### The bin thresholds -/

theorem thresholdsOf_cast (mn diff : ℚ) (N j : Nat) :
    thresholdsOf mn diff N j = mn + diff * (j : ℚ) / ((N : ℚ) - 1) := by
  rw [thresholdsOf, qOfInt_eq, qOfInt_eq]
  push_cast
  ring

theorem one_le_ratio1 : (1 : ℚ) ≤ ratio1 := by norm_num [ratio1]

theorem thresholds_mono {mn diff : ℚ} {N : Nat} (hd : 0 ≤ diff) (hN : 2 ≤ N)
    {j k : Nat} (hjk : j ≤ k) :
    thresholdsOf mn diff N j ≤ thresholdsOf mn diff N k := by
  rw [thresholdsOf_cast, thresholdsOf_cast]
  have hD : (0 : ℚ) < (N : ℚ) - 1 := by
    have h2 : (2 : ℚ) ≤ (N : ℚ) := by exact_mod_cast hN
    linarith
  have hjk2 : (j : ℚ) ≤ (k : ℚ) := by exact_mod_cast hjk
  have h1 : diff * (j : ℚ) ≤ diff * (k : ℚ) := mul_le_mul_of_nonneg_left hjk2 hd
  have h2 : diff * (j : ℚ) / ((N : ℚ) - 1) ≤ diff * (k : ℚ) / ((N : ℚ) - 1) :=
    (div_le_div_iff_of_pos_right hD).2 h1
  linarith

theorem thresholds_last {mn diff : ℚ} {N : Nat} (hN : 2 ≤ N) :
    thresholdsOf mn diff N (N - 1) = mn + diff := by
  rw [thresholdsOf_cast]
  have hD : (0 : ℚ) < (N : ℚ) - 1 := by
    have h2 : (2 : ℚ) ≤ (N : ℚ) := by exact_mod_cast hN
    linarith
  have hc : ((N - 1 : ℕ) : ℚ) = (N : ℚ) - 1 := by
    have : 1 ≤ N := by omega
    push_cast [this]
    ring
  rw [hc, mul_div_assoc, div_self (ne_of_gt hD), mul_one]

/-- Every pole-field value lies at or under the last threshold. -/
theorem mag_le_thresholds_last {s : St} {N : Nat} (hsze : 1 ≤ s.sze) (hN : 2 ≤ N)
    {pN : Nat} (hp : pN < s.sze) :
    s.mag (pN : Int) ≤
      thresholdsOf (minMag s) (ratio1 * (maxMag s - minMag s)) N (N - 1) := by
  rw [thresholds_last hN]
  have h1 : s.mag (pN : Int) ≤ maxMag s := le_maxMag hp
  have h2 : minMag s ≤ maxMag s := minMag_le_maxMag (by omega)
  have h3 : (1 : ℚ) * (maxMag s - minMag s) ≤ ratio1 * (maxMag s - minMag s) :=
    mul_le_mul_of_nonneg_right one_le_ratio1 (by linarith)
  linarith

/-- The deferral scan always halts strictly below the bin count: whenever a
popped voxel's pole-field value exceeds the current threshold, a later
threshold at index `< N` admits it, and the scan stops at the first one. -/
theorem scanTarget_safe {s : St} {N i pN : Nat} (hsze : 1 ≤ s.sze) (hN : 2 ≤ N)
    (hi : i < N) (hp : pN < s.sze)
    (hdef : thresholdsOf (minMag s) (ratio1 * (maxMag s - minMag s)) N i <
      s.mag (pN : Int)) :
    ∃ j, scanTarget (thresholdsOf (minMag s) (ratio1 * (maxMag s - minMag s)) N) N
        (s.mag (pN : Int)) i = some j ∧ i < j ∧ j < N ∧
      s.mag (pN : Int) ≤ thresholdsOf (minMag s) (ratio1 * (maxMag s - minMag s)) N j ∧
      (∀ k, i < k → k < j →
        thresholdsOf (minMag s) (ratio1 * (maxMag s - minMag s)) N k <
          s.mag (pN : Int)) := by
  have hlast := mag_le_thresholds_last (s := s) hsze hN hp
  have hiN : i < N - 1 := by
    by_contra hcon
    have hieq : i = N - 1 := by omega
    rw [hieq] at hdef
    exact absurd hlast (not_le.2 hdef)
  obtain ⟨j, hj⟩ := scanAux_isSome (show i + 1 ≤ N - 1 by omega)
    (show N - 1 < (i + 1) + N by omega) hlast
  obtain ⟨h1, h2, h3, h4⟩ := scanAux_some hj
  have hjN : j ≤ N - 1 := by
    by_contra hcon
    push_neg at hcon
    exact absurd hlast (not_le.2 (h4 (N - 1) (by omega) (by omega)))
  refine ⟨j, ?_, by omega, by omega, h3, fun k hk1 hk2 => h4 k (by omega) hk2⟩
  rw [scanTarget]
  exact hj


/-! ### Shape of a full driver run -/

theorem main_def (d0 d1 d2 : Nat) (ph mg out : Int → ℚ) (nb : Int) (dfuel : Nat) :
    robustUnwrapMainModel d0 d1 d2 ph mg out nb dfuel =
      binsRun
        (thresholdsOf (minMag (mkDriverState d0 d1 d2 ph mg out))
          (ratio1 * (maxMag (mkDriverState d0 d1 d2 ph mg out) -
            minMag (mkDriverState d0 d1 d2 ph mg out))) (binsOf nb))
        (binsOf nb) dfuel (List.range (binsOf nb))
        (unwrapSetup (seedOf d0) (seedOf d1) (seedOf d2)
          (mkDriverState d0 d1 d2 ph mg out)) := rfl

theorem main_ro (d0 d1 d2 : Nat) (ph mg out : Int → ℚ) (nb : Int) (dfuel : Nat) :
    SameRO (mkDriverState d0 d1 d2 ph mg out)
      (robustUnwrapMainModel d0 d1 d2 ph mg out nb dfuel) := by
  rw [main_def]
  exact (unwrapSetup_ro _ _ _ _).transRO (binsRun_ro _ _ _ _ _)

theorem seedpOf_mkDriver (d0 d1 d2 : Nat) (ph mg out : Int → ℚ) :
    seedpOf (mkDriverState d0 d1 d2 ph mg out) (seedOf d0) (seedOf d1) (seedOf d2) =
      mainSeedp d0 d1 d2 := rfl

/-- Every store into the caller's output buffer during a driver run is
recorded in order; the trace always starts with the stray store at flat
index 85 (line 227) followed by the seed store. -/
theorem main_outW (d0 d1 d2 : Nat) (ph mg out : Int → ℚ) (nb : Int) (dfuel : Nat) :
    ∃ l, (robustUnwrapMainModel d0 d1 d2 ph mg out nb dfuel).outW =
      (85 : Int) :: mainSeedp d0 d1 d2 :: l := by
  rw [main_def]
  obtain ⟨l, hl⟩ := binsRun_outExt
    (thresholdsOf (minMag (mkDriverState d0 d1 d2 ph mg out))
      (ratio1 * (maxMag (mkDriverState d0 d1 d2 ph mg out) -
        minMag (mkDriverState d0 d1 d2 ph mg out))) (binsOf nb))
    (binsOf nb) dfuel (List.range (binsOf nb))
    (unwrapSetup (seedOf d0) (seedOf d1) (seedOf d2) (mkDriverState d0 d1 d2 ph mg out))
  refine ⟨l, ?_⟩
  rw [hl, unwrapSetup_outW, seedpOf_mkDriver]
  rfl


/-! ### The claims -/

/-- C1.  The claim says no voxel's output-buffer entry is written more than
once during one unwrap call.  The code violates it: the stray store
`unwrapped[85]=phase[85]` of line 227 precedes the seed store of line 228,
and on a 171x1x1 grid the computed default seed has flat index 85, so the
entry at flat index 85 is stored twice in every run, whatever the fuel.
(`outW` records, in order, every store into the output buffer.) -/
theorem claim_C1 (dfuel : Nat) :
    2 ≤ ((robustUnwrapMainModel 171 1 1 (fun _ => 0) (fun _ => 0) (fun _ => 0)
      2 dfuel).outW.count (85 : Int)) := by
  obtain ⟨l, hl⟩ := main_outW 171 1 1 (fun _ => 0) (fun _ => 0) (fun _ => 0) 2 dfuel
  have hseed : mainSeedp 171 1 1 = 85 := by decide
  rw [hl, hseed]
  simp [List.count_cons]

/-- C2.  The claim says a run whose computed default seed is out of bounds
signals the error, does not start, and leaves the output buffer untouched.
The code only logs the error and proceeds: on a 4x4x0 grid the seed's z
coordinate is -1, `errlog` is set, and the run still stores into the
output buffer at flat indices 85 and -11 (the seed's flat index), for any
fuel. -/
theorem claim_C2 (dfuel : Nat) :
    (robustUnwrapMainModel 4 4 0 (fun _ => 0) (fun _ => 0) (fun _ => 0)
      2 dfuel).errlog = true ∧
    (85 : Int) ∈ (robustUnwrapMainModel 4 4 0 (fun _ => 0) (fun _ => 0) (fun _ => 0)
      2 dfuel).outW ∧
    (-11 : Int) ∈ (robustUnwrapMainModel 4 4 0 (fun _ => 0) (fun _ => 0) (fun _ => 0)
      2 dfuel).outW := by
  obtain ⟨l, hl⟩ := main_outW 4 4 0 (fun _ => 0) (fun _ => 0) (fun _ => 0) 2 dfuel
  have hseed : mainSeedp 4 4 0 = -11 := by decide
  refine ⟨?_, ?_, ?_⟩
  · rw [(main_ro 4 4 0 (fun _ => 0) (fun _ => 0) (fun _ => 0) 2 dfuel).errlog_eq]
    decide
  · rw [hl]
    exact List.mem_cons_self _ _
  · rw [hl, hseed]
    exact List.mem_cons_of_mem _ (List.mem_cons_self _ _)

/-- C3.  The claim says every buffer access of one unwrap call uses a flat
index inside `[0, nx*ny*nz)` for all positive dimensions.  The code
violates it: on a 2x2x2 grid (`sze = 8`) the stray store of line 227
writes the output buffer at flat index 85, outside the allocation, for any
fuel. -/
theorem claim_C3 (dfuel : Nat) :
    (85 : Int) ∈ (robustUnwrapMainModel 2 2 2 (fun _ => 0) (fun _ => 0) (fun _ => 0)
      2 dfuel).outW ∧
    (robustUnwrapMainModel 2 2 2 (fun _ => 0) (fun _ => 0) (fun _ => 0)
      2 dfuel).sze = 8 ∧
    ¬ ((85 : Int) <
      ((robustUnwrapMainModel 2 2 2 (fun _ => 0) (fun _ => 0) (fun _ => 0)
        2 dfuel).sze : Int)) := by
  obtain ⟨l, hl⟩ := main_outW 2 2 2 (fun _ => 0) (fun _ => 0) (fun _ => 0) 2 dfuel
  have hsze : (robustUnwrapMainModel 2 2 2 (fun _ => 0) (fun _ => 0) (fun _ => 0)
      2 dfuel).sze = 8 := by
    rw [(main_ro 2 2 2 (fun _ => 0) (fun _ => 0) (fun _ => 0) 2 dfuel).sze_eq]
    rfl
  refine ⟨?_, hsze, ?_⟩
  · rw [hl]
    exact List.mem_cons_self _ _
  · rw [hsze]
    decide

/-- C6.  For every voxel the run flags (every voxel reached from the seed,
and only those are flagged), the final output differs from the wrapped
phase input by an exact integer multiple of `2*PI`, with the computation
read over exact rationals. -/
theorem claim_C6 (d0 d1 d2 : Nat) (ph mg out : Int → ℚ) (nb : Int) (dfuel : Nat)
    (p : Int)
    (hflag : (robustUnwrapMainModel d0 d1 d2 ph mg out nb dfuel).flag p = true) :
    ∃ k : ℤ, (robustUnwrapMainModel d0 d1 d2 ph mg out nb dfuel).unwrapped p -
      ph p = 2 * PIq * (k : ℚ) := by
  have hcong : congOK (robustUnwrapMainModel d0 d1 d2 ph mg out nb dfuel) := by
    rw [main_def]
    exact congOK_binsRun _ _ _ _ _ (congOK_unwrapSetup _ _ _ _)
  obtain ⟨k, hk⟩ := hcong p hflag
  refine ⟨k, ?_⟩
  rw [hk, (main_ro d0 d1 d2 ph mg out nb dfuel).phase_eq]
  show ph p + 2 * PIq * (k : ℚ) - ph p = 2 * PIq * (k : ℚ)
  ring

/-- C6 witness: on a 1x1x1 grid with zero phase the seed voxel is flagged
and the congruence holds there. -/
theorem claim_C6_w :
    (robustUnwrapMainModel 1 1 1 (fun _ => 0) (fun _ => 0) (fun _ => 0)
      2 5).flag 0 = true ∧
    ∃ k : ℤ, (robustUnwrapMainModel 1 1 1 (fun _ => 0) (fun _ => 0) (fun _ => 0)
      2 5).unwrapped 0 - (fun _ => (0 : ℚ)) (0 : Int) = 2 * PIq * (k : ℚ) :=
  ⟨by decide, claim_C6 1 1 1 (fun _ => 0) (fun _ => 0) (fun _ => 0) 2 5 0 (by decide)⟩

/-- C8.  The record queue refines a FIFO list: `Push` appends at the tail
(growing transparently when full, re-linearizing the ring), `Pop` removes
the head, so pops return records in push order under arbitrary
interleavings; and the concrete scenario - 150 records pushed into a
default-capacity-100 queue with growth increment 500 - grows exactly once,
ends with capacity 600, and 150 pops return the records in insertion
order. -/
theorem claim_C8 :
    (∀ (α : Type) (q : Queue α) (x : α), QInv q →
      QInv (q.push x).1 ∧ (q.push x).1.toList = q.toList ++ [x]) ∧
    (∀ (α : Type) (q : Queue α), QInv q →
      (q.toList = [] → q.pop = none) ∧
      (∀ y l, q.toList = y :: l →
        ∃ q2, q.pop = some (y, q2) ∧ QInv q2 ∧ q2.toList = l)) ∧
    (Queue.pushAll (Queue.init : Queue Nat) (List.range 150)).2 = 1 ∧
    (Queue.pushAll (Queue.init : Queue Nat) (List.range 150)).1.size = 600 ∧
    (Queue.popN 150 (Queue.pushAll (Queue.init : Queue Nat) (List.range 150)).1).1 =
      List.range 150 := by
  refine ⟨?_, ?_, ?_, ?_, ?_⟩
  · intro α q x hq
    exact Queue.push_spec q x hq
  · intro α q hq
    exact Queue.pop_spec q hq
  · decide
  · decide
  · decide

/-- C8 witness: one push on the fresh queue appends its record. -/
theorem claim_C8_w :
    QInv ((Queue.init : Queue Nat).push 7).1 ∧
    ((Queue.init : Queue Nat).push 7).1.toList = (Queue.init : Queue Nat).toList ++ [7] :=
  claim_C8.1 Nat Queue.init 7 ⟨by decide, by decide⟩

/-- C10.  A driver run never writes the caller's wrapped-phase buffer or
magnitude buffer: the final state reads them back unchanged, and the
private pole field is the element-wise negated copy of the magnitude input
on `[0, sze)` (zero elsewhere, as fresh storage). -/
theorem claim_C10 (d0 d1 d2 : Nat) (ph mg out : Int → ℚ) (nb : Int) (dfuel : Nat)
    (p : Int) :
    (robustUnwrapMainModel d0 d1 d2 ph mg out nb dfuel).phase p = ph p ∧
    (robustUnwrapMainModel d0 d1 d2 ph mg out nb dfuel).maginput p = mg p ∧
    (robustUnwrapMainModel d0 d1 d2 ph mg out nb dfuel).mag p =
      (if 0 ≤ p ∧ p < ((d0 * d1 * d2 : Nat) : Int) then -(mg p) else 0) := by
  have hro := main_ro d0 d1 d2 ph mg out nb dfuel
  refine ⟨?_, ?_, ?_⟩
  · rw [hro.phase_eq]
    rfl
  · rw [hro.maginput_eq]
    rfl
  · rw [hro.mag_eq]
    rfl


/-- C positive integer division by 2 is the floor of the rational quotient
on nonnegative operands. -/
theorem tdiv_two_eq_floor {a : ℤ} (h : 0 ≤ a) : Int.tdiv a 2 = ⌊(a : ℚ) / 2⌋ := by
  rw [Int.tdiv_eq_ediv h (by norm_num)]
  have h2 := Rat.floor_intCast_div_natCast a 2
  push_cast at h2
  exact h2.symm

/-- C4 (amended).  The thresholds are non-decreasing and span from the
field minimum to `min + 1.00001*(max(0, field max) - min)`; the last
threshold is at least every pole-field value; hence whenever a popped
voxel's value exceeds the current bin's threshold, the forward scan halts
at an index strictly between the current bin and the bin count, never
reading past the last threshold. -/
theorem claim_C4 (s : St) (N : Nat) (hsze : 1 ≤ s.sze) (hN : 2 ≤ N) :
    (∀ j k : Nat, j ≤ k →
      thresholdsOf (minMag s) (ratio1 * (maxMag s - minMag s)) N j ≤
        thresholdsOf (minMag s) (ratio1 * (maxMag s - minMag s)) N k) ∧
    (∀ pN : Nat, pN < s.sze →
      s.mag (pN : Int) ≤
        thresholdsOf (minMag s) (ratio1 * (maxMag s - minMag s)) N (N - 1)) ∧
    (∀ i pN : Nat, i < N → pN < s.sze →
      thresholdsOf (minMag s) (ratio1 * (maxMag s - minMag s)) N i < s.mag (pN : Int) →
      ∃ j, scanTarget (thresholdsOf (minMag s) (ratio1 * (maxMag s - minMag s)) N) N
        (s.mag (pN : Int)) i = some j ∧ i < j ∧ j < N) := by
  refine ⟨?_, ?_, ?_⟩
  · intro j k hjk
    refine thresholds_mono ?_ hN hjk
    have h1 := minMag_le_maxMag (s := s) (by omega)
    have h2 : (0 : ℚ) ≤ ratio1 := le_trans zero_le_one one_le_ratio1
    exact mul_nonneg h2 (by linarith)
  · intro pN hp
    exact mag_le_thresholds_last hsze hN hp
  · intro i pN hi hp hdef
    obtain ⟨j, h1, h2, h3, _, _⟩ := scanTarget_safe hsze hN hi hp hdef
    exact ⟨j, h1, h2, h3⟩

/-- C4 counterexample to the claim as stated: on a 1x1x1 grid with zero
magnitude the transformed risk field is constantly 0, the two thresholds
are equal (so the sequence is not ascending), and the last threshold does
not strictly exceed the risk value 0 occurring in the field. -/
theorem claim_C4_cex :
    c4st.sze = 1 ∧ c4st.mag 0 = 0 ∧ c4t 0 = c4t 1 ∧ ¬ (c4st.mag 0 < c4t 1) := by
  refine ⟨rfl, by decide, by decide, by decide⟩

/-- C4 witness: the amended claim at the zero-magnitude 1x1x1 scenario. -/
theorem claim_C4_w :
    (∀ j k : Nat, j ≤ k →
      thresholdsOf (minMag c4st) (ratio1 * (maxMag c4st - minMag c4st)) 2 j ≤
        thresholdsOf (minMag c4st) (ratio1 * (maxMag c4st - minMag c4st)) 2 k) ∧
    (∀ pN : Nat, pN < c4st.sze →
      c4st.mag (pN : Int) ≤
        thresholdsOf (minMag c4st) (ratio1 * (maxMag c4st - minMag c4st)) 2 (2 - 1)) ∧
    (∀ i pN : Nat, i < 2 → pN < c4st.sze →
      thresholdsOf (minMag c4st) (ratio1 * (maxMag c4st - minMag c4st)) 2 i <
        c4st.mag (pN : Int) →
      ∃ j, scanTarget (thresholdsOf (minMag c4st)
        (ratio1 * (maxMag c4st - minMag c4st)) 2) 2 (c4st.mag (pN : Int)) i = some j ∧
        i < j ∧ j < 2) :=
  claim_C4 c4st 2 (by decide) (by decide)

/-- C5.  On an admitted neighbour (in bounds, unvisited), `Check` stores
exactly the value of the specification formula: `wholepis` is the
truncation toward zero of `(phase[n] - v)/PI`, and the correction uses
`floor((wholepis+1)/2)` respectively `floor((1-wholepis)/2)` whole turns
of `2*PI`, leaving the phase unchanged when `|wholepis| < 1`. -/
theorem claim_C5 (qnum : Nat) (qe : QE) (offp ox oy oz : Int) (s : St)
    (hx : 0 ≤ qe.x + ox ∧ qe.x + ox < s.dim0)
    (hy : 0 ≤ qe.y + oy ∧ qe.y + oy < s.dim1)
    (hz : 0 ≤ qe.z + oz ∧ qe.z + oz < s.dim2)
    (hf : s.flag (qe.p + offp) = false) :
    (checkN qnum qe offp ox oy oz s).unwrapped (qe.p + offp) =
      (if 1 ≤ wholepisOf (s.phase (qe.p + offp)) qe.v then
        s.phase (qe.p + offp) -
          2 * PIq * ((⌊((wholepisOf (s.phase (qe.p + offp)) qe.v : ℚ) + 1) / 2⌋ : ℤ) : ℚ)
      else if wholepisOf (s.phase (qe.p + offp)) qe.v ≤ -1 then
        s.phase (qe.p + offp) +
          2 * PIq * ((⌊(1 - (wholepisOf (s.phase (qe.p + offp)) qe.v : ℚ)) / 2⌋ : ℤ) : ℚ)
      else s.phase (qe.p + offp)) ∧
    wholepisOf (s.phase (qe.p + offp)) qe.v =
      (if 0 ≤ (s.phase (qe.p + offp) - qe.v) / PIq
       then ⌊(s.phase (qe.p + offp) - qe.v) / PIq⌋
       else ⌈(s.phase (qe.p + offp) - qe.v) / PIq⌉) := by
  constructor
  · rw [checkN_write ⟨hx, hy, hz, hf⟩]
    dsimp only
    rw [Function.update_same, unwrapVal]
    by_cases h1 : 1 ≤ wholepisOf (s.phase (qe.p + offp)) qe.v
    · rw [if_pos h1, if_pos h1, qOfInt_eq,
        tdiv_two_eq_floor (by omega : 0 ≤ wholepisOf (s.phase (qe.p + offp)) qe.v + 1)]
      push_cast
      ring_nf
    · rw [if_neg h1, if_neg h1]
      by_cases h2 : wholepisOf (s.phase (qe.p + offp)) qe.v ≤ -1
      · rw [if_pos h2, if_pos h2, qOfInt_eq,
          tdiv_two_eq_floor (by omega : 0 ≤ 1 - wholepisOf (s.phase (qe.p + offp)) qe.v)]
        push_cast
        ring_nf
      · rw [if_neg h2, if_neg h2]
  · rw [wholepisOf, truncQ_eq_ite]

/-- C5 witness: the neighbour formula at a concrete admitted neighbour of
the seed of a 1x1x2 grid whose phase step is exactly `PI`. -/
theorem claim_C5_w :
    (checkN 0 ⟨0, 0, 0, 0, 0⟩ 1 0 0 1
        (mkDriverState 1 1 2 phC7 (fun _ => 0) (fun _ => 0))).unwrapped
        ((0 : Int) + 1) =
      (if 1 ≤ wholepisOf ((mkDriverState 1 1 2 phC7 (fun _ => 0) (fun _ => 0)).phase
          ((0 : Int) + 1)) (0 : ℚ) then
        (mkDriverState 1 1 2 phC7 (fun _ => 0) (fun _ => 0)).phase ((0 : Int) + 1) -
          2 * PIq * ((⌊((wholepisOf ((mkDriverState 1 1 2 phC7 (fun _ => 0)
            (fun _ => 0)).phase ((0 : Int) + 1)) (0 : ℚ) : ℚ) + 1) / 2⌋ : ℤ) : ℚ)
      else if wholepisOf ((mkDriverState 1 1 2 phC7 (fun _ => 0) (fun _ => 0)).phase
          ((0 : Int) + 1)) (0 : ℚ) ≤ -1 then
        (mkDriverState 1 1 2 phC7 (fun _ => 0) (fun _ => 0)).phase ((0 : Int) + 1) +
          2 * PIq * ((⌊(1 - (wholepisOf ((mkDriverState 1 1 2 phC7 (fun _ => 0)
            (fun _ => 0)).phase ((0 : Int) + 1)) (0 : ℚ) : ℚ)) / 2⌋ : ℤ) : ℚ)
      else (mkDriverState 1 1 2 phC7 (fun _ => 0) (fun _ => 0)).phase ((0 : Int) + 1)) ∧
    wholepisOf ((mkDriverState 1 1 2 phC7 (fun _ => 0) (fun _ => 0)).phase
        ((0 : Int) + 1)) (0 : ℚ) =
      (if 0 ≤ ((mkDriverState 1 1 2 phC7 (fun _ => 0) (fun _ => 0)).phase
          ((0 : Int) + 1) - (0 : ℚ)) / PIq
       then ⌊((mkDriverState 1 1 2 phC7 (fun _ => 0) (fun _ => 0)).phase
          ((0 : Int) + 1) - (0 : ℚ)) / PIq⌋
       else ⌈((mkDriverState 1 1 2 phC7 (fun _ => 0) (fun _ => 0)).phase
          ((0 : Int) + 1) - (0 : ℚ)) / PIq⌉) :=
  claim_C5 0 ⟨0, 0, 0, 0, 0⟩ 1 0 0 1 (mkDriverState 1 1 2 phC7 (fun _ => 0) (fun _ => 0))
    (by constructor <;> decide) (by constructor <;> decide)
    (by constructor <;> decide) (by decide)

/-- C7 (amended).  If every pair of 6-connected in-bounds neighbours of the
wrapped-phase input differs by strictly less than `PI`, then on positive
dimensions the run writes every flagged (seed-reachable) voxel's output
equal to its wrapped phase: unwrap is the identity on the reachable
region. -/
theorem claim_C7 (d0 d1 d2 : Nat) (hd0 : 0 < d0) (hd1 : 0 < d1) (hd2 : 0 < d2)
    (ph mg out : Int → ℚ) (nb : Int) (dfuel : Nat)
    (hcont : StrictCont (d0 : Int) (d1 : Int) (d2 : Int) ph) (p : Int)
    (hflag : (robustUnwrapMainModel d0 d1 d2 ph mg out nb dfuel).flag p = true) :
    (robustUnwrapMainModel d0 d1 d2 ph mg out nb dfuel).unwrapped p = ph p := by
  have hg : GInv (robustUnwrapMainModel d0 d1 d2 ph mg out nb dfuel) := by
    rw [main_def]
    refine GInv_binsRun _ _ _ _ _ ⟨rfl, rfl, rfl⟩ ?_ ?_
    · exact hcont
    · exact GInv_unwrapSetup (seedOf_bounds hd0).1 (seedOf_bounds hd0).2
        (seedOf_bounds hd1).1 (seedOf_bounds hd1).2
        (seedOf_bounds hd2).1 (seedOf_bounds hd2).2
  have h2 := hg.2.2 p hflag
  rw [h2, (main_ro d0 d1 d2 ph mg out nb dfuel).phase_eq]
  rfl

/-- C7 counterexample to the claim as stated: on a 1x1x2 grid with phase
values `0` and `PI` no neighbouring difference exceeds `PI` (the claim's
non-strict hypothesis holds), the non-seed voxel is reached, yet its
output `-PI` differs from its input `PI`. -/
theorem claim_C7_cex :
    LaxCont 1 1 2 phC7 ∧
    (robustUnwrapMainModel 1 1 2 phC7 (fun _ => 0) (fun _ => 0) 2 5).flag 1 = true ∧
    (robustUnwrapMainModel 1 1 2 phC7 (fun _ => 0) (fun _ => 0) 2 5).unwrapped 1 =
      -PIq ∧
    phC7 1 = PIq ∧
    ¬ (robustUnwrapMainModel 1 1 2 phC7 (fun _ => 0) (fun _ => 0) 2 5).unwrapped 1 =
      phC7 1 := by
  refine ⟨?_, by decide, by decide, rfl, by decide⟩
  intro x y z hx1 hx2 hy1 hy2 hz1 hz2
  have hx : x = 0 := by omega
  have hy : y = 0 := by omega
  subst hx hy
  refine ⟨fun h => absurd h (by omega), fun h => absurd h (by omega), fun h => ?_⟩
  have hz : z = 0 := by omega
  subst hz
  show |phC7 (flat3 1 1 0 0 1) - phC7 (flat3 1 1 0 0 0)| ≤ PIq
  have h1 : flat3 1 1 0 0 1 = 1 := by rw [flat3]; ring
  have h0 : flat3 1 1 0 0 0 = 0 := by rw [flat3]; ring
  rw [h1, h0]
  show |phC7 1 - phC7 0| ≤ PIq
  have hv1 : phC7 1 = PIq := rfl
  have hv0 : phC7 0 = 0 := rfl
  rw [hv1, hv0, sub_zero, abs_of_pos PIq_pos]

/-- C7 witness: the amended claim on a 1x1x1 grid with zero phase. -/
theorem claim_C7_w :
    (robustUnwrapMainModel 1 1 1 (fun _ => 0) (fun _ => 0) (fun _ => 0)
      2 5).flag 0 = true ∧
    (robustUnwrapMainModel 1 1 1 (fun _ => 0) (fun _ => 0) (fun _ => 0)
      2 5).unwrapped 0 = (fun _ => (0 : ℚ)) (0 : Int) :=
  ⟨by decide, claim_C7 1 1 1 (by decide) (by decide) (by decide)
    (fun _ => 0) (fun _ => 0) (fun _ => 0) 2 5
    (fun x y z _ hx2 _ _ _ _ => ⟨fun h => absurd h (by omega),
      fun h => absurd h (by omega), fun h => absurd h (by omega)⟩)
    0 (by decide)⟩

/-- C9 (amended).  A popped record is expanded exactly when its pole-field
value does not exceed the current bin's threshold; otherwise the identical
record (flag, output and write-trace untouched) is appended to the queue
of bin `j`, the smallest index above the current bin whose threshold is at
least the record's value (every bin strictly between still has a smaller
threshold), so bin `j` is the first later bin at which it is accepted. -/
theorem claim_C9 (t : Nat → ℚ) (N i fuel : Nat) (s s2 : St) (qe : QE)
    (hpop : popQ i s = some (qe, s2)) :
    (¬ t i < s2.mag qe.p →
      drainBin t N i (fuel + 1) s = drainBin t N i fuel (expand i qe s2)) ∧
    (∀ j, t i < s2.mag qe.p → scanTarget t N (s2.mag qe.p) i = some j →
      drainBin t N i (fuel + 1) s = drainBin t N i fuel (pushQ j qe s2) ∧
      (pushQ j qe s2).flag = s2.flag ∧
      (pushQ j qe s2).unwrapped = s2.unwrapped ∧
      (pushQ j qe s2).outW = s2.outW ∧
      (QInv (s2.queues j) →
        ((pushQ j qe s2).queues j).toList = (s2.queues j).toList ++ [qe]) ∧
      i < j ∧ s2.mag qe.p ≤ t j ∧
      (∀ k, i < k → k < j → t k < s2.mag qe.p)) := by
  constructor
  · intro hm
    exact drainBin_succ_expand hpop hm
  · intro j hm hscan
    have hscan2 : scanAux t (s2.mag qe.p) N (i + 1) = some j := hscan
    obtain ⟨h1, h2, h3, h4⟩ := scanAux_some hscan2
    refine ⟨drainBin_succ_defer hpop hm hscan, rfl, rfl, rfl, ?_, by omega, h3, ?_⟩
    · intro hq
      show (Function.update s2.queues j ((s2.queues j).push qe).1 j).toList = _
      rw [Function.update_same]
      exact (Queue.push_spec _ _ hq).2
    · intro k hk1 hk2
      exact h4 k (by omega) hk2

/-- C9 counterexample to the claim as stated: in the 1x1x3 deferral
scenario the seed record's risk value equals threshold 1 exactly, the code
defers it to bin 1 - whose threshold does not exceed (is merely equal to)
the risk value - although the smallest bin index whose threshold strictly
exceeds the risk value is 2. -/
theorem claim_C9_cex :
    c9t 0 < c9st.mag 1 ∧
    scanTarget c9t 3 (c9st.mag 1) 0 = some 1 ∧
    c9t 1 = c9st.mag 1 ∧
    ¬ (c9st.mag 1 < c9t 1) ∧
    c9st.mag 1 < c9t 2 ∧
    ((drainBin c9t 3 0 1 c9s1).queues 1).toList = [c9qe] := by
  refine ⟨by decide, by decide, by decide, by decide, by decide, by decide⟩

/-- C9 witness: the deferral step of the 1x1x3 scenario, through the
amended claim. -/
theorem claim_C9_w :
    drainBin c9t 3 0 1 c9s1 = drainBin c9t 3 0 0 (pushQ 1 c9qe c9popped) ∧
    c9popped.mag c9qe.p ≤ c9t 1 := by
  have h := (claim_C9 c9t 3 0 0 c9s1 c9popped c9qe rfl).2 1 (by decide) (by decide)
  exact ⟨h.1, h.2.2.2.2.2.2.1⟩

end RobustUnwrap
